import Mathlib

/-!
# Verification of the mariv2 trie core (iterate.go, node.go)

Shallow embedding of the mariv2 ordered HAMT key-value store.  Machine
integers are modelled as `Nat` with explicit `% 2^w` where Go overflow
matters; Go byte slices are `List Nat`; a nil slice is distinguished from
an empty one by `Option` where the source distinguishes them; fallible Go
functions returning `(T, error)` are modelled with the `Res` type below,
whose `fault` constructor stands for a Go runtime panic that has not (yet)
been recovered.
-/

namespace Mariv2

/-- Result of a fallible Go computation: `ok` (nil error), `err` (non-nil
error, nil result), or `fault` (an un-recovered runtime panic). -/
inductive Res (α : Type) where
  | ok : α → Res α
  | err : String → Res α
  | fault : Res α
deriving DecidableEq, Repr

/-- Model of a Go `defer func() { r := recover(); ... }()` block that turns
any panic into a generic error, as used throughout node.go. -/
def recover (msg : String) : Res α → Res α
  | Res.fault => Res.err msg
  | r => r

/-- Byte layout constants of the node codec (spec §4.1).  Not under src/;
values are fixed by the spec's layout table. -/
def NodeEndOffsetIdx : Nat := 16

def NodeBitmapIdx : Nat := 18

def NodeLeafOffsetIdx : Nat := 50

def NodeChildrenIdx : Nat := 58

def NodeChildPtrSize : Nat := 8

def NodeKeyIdx : Nat := 19

def OffsetSize16 : Nat := 2

def OffsetSize64 : Nat := 8

/-- Little-endian decoding of a byte list into a natural number. -/
def decodeLE (b : List Nat) : Nat := b.foldr (fun x acc => x % 256 + 256 * acc) 0

/-- Little-endian encoding of `x` into `k` bytes (truncating, as a Go
fixed-width store does). -/
def encodeLE (k x : Nat) : List Nat := (List.range k).map (fun i => x / 256 ^ i % 256)

/-- `extract b a len` = the `len` bytes of `b` starting at position `a`
(shorter when `b` ends early); used inside decoders that have already
checked lengths. -/
def extract (b : List Nat) (a len : Nat) : List Nat := (b.drop a).take len

/-- Go slice expression `m[a:b]`: `none` models the bounds panic. -/
def goSlice (m : List Nat) (a b : Nat) : Option (List Nat) :=
  if a ≤ b ∧ b ≤ m.length then some ((m.take b).drop a) else none

/-- Effect of Go `copy(m[a:a+k], src)` on the backing array `m`: the first
`k` bytes of `src` overwrite `m` starting at `a` (callers pass
`k = min dstLen srcLen`, which is the number of bytes Go's `copy` moves). -/
def writeBytes (m : List Nat) (a : Nat) (src : List Nat) (k : Nat) : List Nat :=
  m.take a ++ src.take k ++ m.drop (a + k)

/-- mariv2 `KeyValuePair` as used by iterate.go (`Key`, `Value`). -/
structure KeyValuePair where
  Key : List Nat
  Value : List Nat
deriving DecidableEq, Repr

/-- mariv2 `LNode` (leaf node).  `key` is `none` when the Go slice is nil
(the pool zero value / sentinel) and `some bytes` otherwise. -/
structure LNode where
  version : Nat
  startOffset : Nat
  endOffset : Nat
  keyLength : Nat
  key : Option (List Nat)
  value : List Nat
deriving DecidableEq, Repr

/-- The bytes of a leaf's key; Go treats a nil slice as empty wherever the
key is read (`len`, `bytes.Compare`, building a `KeyValuePair`). -/
def LNode.keyBytes (n : LNode) : List Nat := n.key.getD []

/-- mariv2 `INode` (internal node): `version`, `startOffset`, `endOffset`,
256-bit bitmap as eight 32-bit words, owned leaf, ordered children. -/
inductive INode where
  | mk (version startOffset endOffset : Nat) (bitmap : List Nat) (leaf : LNode)
      (children : List INode) : INode

def INode.version : INode → Nat
  | .mk v _ _ _ _ _ => v

def INode.startOffset : INode → Nat
  | .mk _ s _ _ _ _ => s

def INode.endOffset : INode → Nat
  | .mk _ _ e _ _ _ => e

def INode.bitmap : INode → List Nat
  | .mk _ _ _ b _ _ => b

def INode.leaf : INode → LNode
  | .mk _ _ _ _ l _ => l

def INode.children : INode → List INode
  | .mk _ _ _ _ _ c => c

/-- Replace the leaf of a node (`node.leaf = leaf` in readINodeFromMemMap). -/
def INode.withLeaf : INode → LNode → INode
  | .mk v s e b _ c, l => .mk v s e b l c

/-- The bit `i` of a machine word, via division (kernel-friendly). -/
def nthBit (w i : Nat) : Nat := w / 2 ^ i % 2

/-- Modelled from the spec: `calculateHammingWeight` (not under src/) is the
popcount of one 32-bit bitmap word (Go `bits.OnesCount32`). -/
def calculateHammingWeight (w : Nat) : Nat :=
  ((List.range 32).map (nthBit w)).sum

/-- Total popcount of an eight-word bitmap, as summed by
`determineEndOffsetINode`. -/
def bitmapPopcount (bm : List Nat) : Nat :=
  (bm.map calculateHammingWeight).sum

/-- Go `uint16` subtraction of 1 (wrapping), for the `nodeEndOffset - 1`
returns in node.go. -/
def u16sub1 (x : Nat) : Nat := (x % 65536 + 65535) % 65536

/-- node.go `determineEndOffsetINode`: children index plus 8 bytes per set
bitmap bit, minus one (u16 arithmetic). -/
def INode.determineEndOffsetINode (node : INode) : Nat :=
  let encodedChildrenLength := bitmapPopcount node.bitmap * NodeChildPtrSize
  let nodeEndOffset :=
    if encodedChildrenLength ≠ 0 then (NodeChildrenIdx + encodedChildrenLength) % 65536
    else NodeChildrenIdx
  u16sub1 nodeEndOffset

/-- node.go `determineEndOffsetLNode`: key index plus key length plus value
length when the key is non-nil, else just the key index; minus one. -/
def LNode.determineEndOffsetLNode (node : LNode) : Nat :=
  let nodeEndOffset :=
    match node.key with
    | some _ => (NodeKeyIdx + node.keyLength + node.value.length) % 65536
    | none => NodeKeyIdx
  u16sub1 nodeEndOffset

/-- node.go `getEndOffsetINode`. -/
def INode.getEndOffsetINode (node : INode) : Nat := node.startOffset + node.endOffset

/-- node.go `getEndOffsetLNode`. -/
def LNode.getEndOffsetLNode (node : LNode) : Nat := node.startOffset + node.endOffset

/-- node.go `copyINode`: the pool hands back a reusable node `fresh`
(pool.getINode is not under src/; the spec only promises a per-transaction
reusable allocation, so its prior field contents are arbitrary), then
version, bitmap, leaf are assigned and the children slice is copied. -/
def copyINode (fresh node : INode) : INode :=
  match fresh with
  | .mk _ so eo _ _ _ =>
      .mk node.version so eo node.bitmap node.leaf node.children

/-- The memory map (`mariInst.data.Load().(MMap)`): the file's bytes. -/
def MMap : Type := List Nat

/-- Mutable storage state seen by the write path: the map plus the list of
regions handed to `flushRegionToDisk` (spec §4.2 `flushRegion`). -/
structure MariState where
  mMap : List Nat
  flushed : List (Nat × Nat)
deriving DecidableEq, Repr

/-- Modelled from the spec: `flushRegionToDisk` (not under src/) syncs the
byte range `[start, end]` to disk; we record the region. -/
def flushRegionToDisk (st : MariState) (a b : Nat) : MariState :=
  { st with flushed := (a, b) :: st.flushed }

/-- Modelled from the spec: `serializeLNode` (not under src/), the fixed
little-endian leaf layout of §4.1: version, startOffset, endOffset,
keyLength (u8), key bytes, value bytes. -/
def serializeLNode (n : LNode) : List Nat :=
  encodeLE 8 n.version ++ encodeLE 8 n.startOffset ++
    encodeLE 2 n.determineEndOffsetLNode ++ [n.keyLength % 256] ++
    n.keyBytes ++ n.value

/-- Modelled from the spec: `serializeINode` (not under src/), the fixed
little-endian internal-node layout of §4.1: version, startOffset,
endOffset, 32-byte bitmap, leaf pointer, then one u64 per child. -/
def serializeINode (n : INode) : List Nat :=
  encodeLE 8 n.version ++ encodeLE 8 n.startOffset ++
    encodeLE 2 n.determineEndOffsetINode ++
    ((n.bitmap.take 8).map (encodeLE 4)).flatten ++
    encodeLE 8 n.leaf.startOffset ++
    (n.children.map (fun c => encodeLE 8 c.startOffset)).flatten

/-- Modelled from the spec: `deserializeUint16` (not under src/). -/
def deserializeUint16 (b : List Nat) : Res Nat :=
  if b.length = OffsetSize16 then Res.ok (decodeLE b)
  else Res.err "invalid byte length for uint16 deserialization"

/-- A child pointer decoded from an internal node's body: only its
`startOffset` is known until it is itself read from the map. -/
def blankChild (so : Nat) : INode :=
  .mk 0 so 0 [0, 0, 0, 0, 0, 0, 0, 0]
    { version := 0, startOffset := 0, endOffset := 0, keyLength := 0,
      key := none, value := [] } []

/-- Modelled from the spec: `deserializeLNode` (not under src/): decodes the
§4.1 leaf layout, failing when the buffer disagrees with its own header. -/
def deserializeLNode (b : List Nat) : Res LNode :=
  if NodeKeyIdx ≤ b.length ∧
      NodeKeyIdx + (b.get? 18).getD 0 ≤ b.length ∧
      decodeLE (extract b NodeEndOffsetIdx OffsetSize16) + 1 = b.length then
    let kl := (b.get? 18).getD 0
    Res.ok
      { version := decodeLE (extract b 0 8)
        startOffset := decodeLE (extract b 8 8)
        endOffset := decodeLE (extract b NodeEndOffsetIdx OffsetSize16)
        keyLength := kl
        key := if kl = 0 then none else some (extract b NodeKeyIdx kl)
        value := extract b (NodeKeyIdx + kl) (b.length - NodeKeyIdx - kl) }
  else Res.err "corrupt leaf node"

/-- Modelled from the spec: `deserializeINode` (not under src/): decodes the
§4.1 internal-node layout, failing when the buffer disagrees with its own
header; children come out as `blankChild` pointers. -/
def deserializeINode (b : List Nat) : Res INode :=
  if NodeChildrenIdx ≤ b.length ∧
      decodeLE (extract b NodeEndOffsetIdx OffsetSize16) + 1 = b.length ∧
      (b.length - NodeChildrenIdx) % NodeChildPtrSize = 0 then
    Res.ok
      (.mk (decodeLE (extract b 0 8)) (decodeLE (extract b 8 8))
        (decodeLE (extract b NodeEndOffsetIdx OffsetSize16))
        ((List.range 8).map (fun i => decodeLE (extract b (NodeBitmapIdx + 4 * i) 4)))
        { version := 0, startOffset := decodeLE (extract b NodeLeafOffsetIdx 8),
          endOffset := 0, keyLength := 0, key := none, value := [] }
        ((List.range ((b.length - NodeChildrenIdx) / NodeChildPtrSize)).map
          (fun i => blankChild (decodeLE (extract b (NodeChildrenIdx + 8 * i) 8)))))
  else Res.err "corrupt internal node"

/-- Body of node.go `readLNodeFromMemMap` before its recover block: read the
u16 end offset at `startOffset+16`, slice the node's bytes, decode. -/
def readLNodeRaw (m : MMap) (startOffset : Nat) : Res LNode :=
  let endOffsetIdx := startOffset + NodeEndOffsetIdx
  match goSlice m endOffsetIdx (endOffsetIdx + OffsetSize16) with
  | none => Res.fault
  | some sEndOffset =>
    match deserializeUint16 sEndOffset with
    | Res.err e => Res.err e
    | Res.fault => Res.fault
    | Res.ok endOffset =>
      match goSlice m startOffset (startOffset + endOffset + 1) with
      | none => Res.fault
      | some sNode => deserializeLNode sNode

/-- node.go `readLNodeFromMemMap`: the raw read wrapped in the recover block
that converts panics into a generic error. -/
def readLNodeFromMemMap (m : MMap) (startOffset : Nat) : Res LNode :=
  recover "error reading node from mem map" (readLNodeRaw m startOffset)

/-- Body of node.go `readINodeFromMemMap` up to `deserializeINode` (before
the leaf is materialized). -/
def readINodeRaw (m : MMap) (startOffset : Nat) : Res INode :=
  let endOffsetIdx := startOffset + NodeEndOffsetIdx
  match goSlice m endOffsetIdx (endOffsetIdx + OffsetSize16) with
  | none => Res.fault
  | some sEndOffset =>
    match deserializeUint16 sEndOffset with
    | Res.err e => Res.err e
    | Res.fault => Res.fault
    | Res.ok endOffset =>
      match goSlice m startOffset (startOffset + endOffset + 1) with
      | none => Res.fault
      | some sNode => deserializeINode sNode

/-- node.go `readINodeFromMemMap`: decode the internal node, then also read
its leaf from `leaf.startOffset`, all under the recover block. -/
def readINodeFromMemMap (m : MMap) (startOffset : Nat) : Res INode :=
  recover "error reading node from mem map"
    (match readINodeRaw m startOffset with
     | Res.ok node =>
       match readLNodeFromMemMap m node.leaf.startOffset with
       | Res.ok leaf => Res.ok (node.withLeaf leaf)
       | Res.err e => Res.err e
       | Res.fault => Res.fault
     | Res.err e => Res.err e
     | Res.fault => Res.fault)

/-- node.go `getChildNode`: a same-version, unpersisted child is already on
the current path and is returned directly; otherwise it is read from the
memory map. -/
def getChildNode (m : MMap) (childOffset : INode) (version : Nat) : Res INode :=
  if childOffset.version = version ∧ childOffset.startOffset = 0 then
    Res.ok childOffset
  else readINodeFromMemMap m childOffset.startOffset

/-- node.go `writeLNodeToMemMap`: serialize, copy into
`mMap[startOffset : endOffset+1]`, flush `[startOffset, endOffset]`,
return `endOffset + 1`; panics become the generic write error. -/
def writeLNodeToMemMap (st : MariState) (node : LNode) : Res (MariState × Nat) :=
  recover "error writing new path to mmap"
    (let sNode := serializeLNode node
     let endOffset := node.getEndOffsetLNode
     if node.startOffset ≤ endOffset + 1 ∧ endOffset + 1 ≤ st.mMap.length then
       let st1 := { st with
         mMap := writeBytes st.mMap node.startOffset sNode
           (min (endOffset + 1 - node.startOffset) sNode.length) }
       Res.ok (flushRegionToDisk st1 node.startOffset endOffset, endOffset + 1)
     else Res.fault)

/-- The storage state after a successful `writeLNodeToMemMap`: the leaf's
serialized bytes written at its start offset and its region flushed. -/
def writeLNodePost (st : MariState) (ln : LNode) : MariState :=
  let m2 := writeBytes st.mMap ln.startOffset (serializeLNode ln) (serializeLNode ln).length
  flushRegionToDisk { st with mMap := m2 } ln.startOffset ln.getEndOffsetLNode

/-- The storage state after the internal-node half of `writeINodeToMemMap`:
the node's serialized bytes copied into
`mMap[node.startOffset : node.leaf.startOffset+1]` (Go `copy` moves
`min(dstLen, srcLen)` bytes) and `[startOffset, startOffset+endOffset]`
flushed. -/
def writeINodeMapped (st : MariState) (node : INode) : MariState :=
  let sNode := serializeINode node
  let m2 := writeBytes st.mMap node.startOffset sNode
    (min (node.leaf.startOffset + 1 - node.startOffset) sNode.length)
  flushRegionToDisk { st with mMap := m2 } node.startOffset node.getEndOffsetINode

/-- node.go `writeINodeToMemMap`: serialize, copy into
`mMap[node.startOffset : node.leaf.startOffset+1]`, flush
`[startOffset, startOffset+endOffset]`, then write the leaf; panics become
the generic write error. -/
def writeINodeToMemMap (st : MariState) (node : INode) : Res (MariState × Nat) :=
  recover "error writing new path to mmap"
    (if node.startOffset ≤ node.leaf.startOffset + 1 ∧
         node.leaf.startOffset + 1 ≤ st.mMap.length then
       match writeLNodeToMemMap (writeINodeMapped st node) node.leaf with
       | Res.ok (st3, lEndOffset) => Res.ok (st3, lEndOffset)
       | Res.err e => Res.err e
       | Res.fault => Res.fault
     else Res.fault)

/-- node.go `writeNodesToMemMap`: copy a pre-serialized byte run at
`offset`; panics become the generic write error. -/
def writeNodesToMemMap (st : MariState) (snodes : List Nat) (offset : Nat) :
    Res (MariState × Bool) :=
  recover "error writing new path to mmap"
    (let lenSNodes := snodes.length
     let endOffset := offset + lenSNodes
     if offset ≤ endOffset ∧ endOffset ≤ st.mMap.length then
       Res.ok ({ st with
         mMap := writeBytes st.mMap offset snodes (min (endOffset - offset) snodes.length) },
         true)
     else Res.fault)

/-- Bit `i` (0..255) of the eight-word bitmap: bit `i % 32` of word `i / 32`. -/
def bitmapBit (bm : List Nat) (i : Nat) : Nat := nthBit ((bm.get? (i / 32)).getD 0) (i % 32)

/-- Modelled from the spec: `getIndexForLevel` (not under src/) is
`key[level]` when `level < len(key)`, else 0 (a nil Go slice has length 0,
so callers pass the key's bytes). -/
def getIndexForLevel (key : List Nat) (level : Nat) : Nat :=
  if h : level < key.length then key.get ⟨level, h⟩ else 0

/-- Modelled from the spec: `getPosition` (not under src/) is the popcount
of the bitmap bits strictly lower than `i` (the dense rank of index `i`);
the `level` argument is unused by the spec's description. -/
def getPosition (bm : List Nat) (i level : Nat) : Nat :=
  ((List.range i).map (bitmapBit bm)).sum

/-- Go `bytes.Compare` on byte slices (nil and empty compare equal). -/
def bytesCompare : List Nat → List Nat → Ordering
  | [], [] => Ordering.eq
  | [], _ :: _ => Ordering.lt
  | _ :: _, [] => Ordering.gt
  | a :: as, b :: bs =>
    if a < b then Ordering.lt else if b < a then Ordering.gt else bytesCompare as bs

/-- The identity `Transform`, mariv2's default when the caller passes nil. -/
def idT : KeyValuePair → KeyValuePair := fun kv => kv

/-- iterate.go: `genKeyValPair` builds the emitted pair from a node's leaf. -/
def genKeyValPair (node : INode) : KeyValuePair :=
  { Key := node.leaf.keyBytes, Value := node.leaf.value }

/-- The length Go's `len(startKey)` sees (nil and empty both 0). -/
def skLen (startKey : Option (List Nat)) : Nat := (startKey.getD []).length

/-- The bytes Go passes around as `startKey` (nil reads as empty). -/
def skBytes (startKey : Option (List Nat)) : List Nat := startKey.getD []

/-- The child loop of iterate.go lines 56-86, one step per remaining child
starting at `startKeyPos`: re-check the limit, materialize the child via
`getChildNode`, recurse with `startKey` on the first (cursor) child when
`startKey != nil` and with nil on every later child.  `recur` is the
enclosing `iterateRecursive` at the next level with one less unit of
fuel. -/
def iterateChildren (recur : INode → Option (List Nat) → List KeyValuePair →
      Res (List KeyValuePair)) (m : MMap) (currVersion : Nat)
    (startKey : Option (List Nat)) (totalResults : Nat) :
    List INode → Nat → Nat → List KeyValuePair → Res (List KeyValuePair)
  | [], _, _, acc => Res.ok acc
  | child :: rest, currPos, startKeyPos, acc =>
    if acc.length < totalResults then
      match getChildNode m child currVersion with
      | Res.err e => Res.err e
      | Res.fault => Res.fault
      | Res.ok childNode =>
        let branch :=
          if currPos = startKeyPos ∧ startKey.isSome then recur childNode startKey acc
          else recur childNode none acc
        match branch with
        | Res.ok acc2 =>
          iterateChildren recur m currVersion startKey totalResults rest
            (currPos + 1) startKeyPos acc2
        | Res.err e => Res.err e
        | Res.fault => Res.fault
    else Res.ok acc

/-- iterate.go `iterateRecursive`, translated clause by clause; `fuel`
bounds the recursion depth (the Go recursion is bounded only by the shape
of what `getChildNode` materializes, so exhausting `fuel` is reported as
`fault`, the divergence marker, and every theorem below supplies enough
fuel for it never to fire).  For `level > 0` the four switch cases of
lines 27-50 appear in source order; for `level = 0` the cursor position is
computed from the start key and nothing is emitted. -/
def iterateRecursive (m : MMap) (fuel : Nat) (node : INode) (minVersion : Nat)
    (startKey : Option (List Nat)) (totalResults level : Nat)
    (acc : List KeyValuePair) (transform : KeyValuePair → KeyValuePair) :
    Res (List KeyValuePair) :=
  match fuel with
  | 0 => Res.fault
  | Nat.succ fuel =>
    let currNode := node
    let recur := fun (child : INode) (sk : Option (List Nat)) (a : List KeyValuePair) =>
      iterateRecursive m fuel child minVersion sk totalResults (level + 1) a transform
    if 0 < level then
      if totalResults = acc.length then Res.ok acc
      else if skLen startKey = level then
        let acc2 :=
          if minVersion ≤ currNode.leaf.version then acc ++ [transform (genKeyValPair currNode)]
          else acc
        iterateChildren recur m currNode.version startKey totalResults
          (currNode.children.drop 0) 0 0 acc2
      else if startKey.isSome ∧ level < skLen startKey then
        let acc2 :=
          if bytesCompare currNode.leaf.keyBytes (skBytes startKey) = Ordering.gt ∨
              currNode.leaf.keyBytes = skBytes startKey then
            if minVersion ≤ currNode.leaf.version then acc ++ [transform (genKeyValPair currNode)]
            else acc
          else acc
        let startKeyIndex := getIndexForLevel (skBytes startKey) level
        let startKeyPos := getPosition currNode.bitmap startKeyIndex level
        iterateChildren recur m currNode.version startKey totalResults
          (currNode.children.drop startKeyPos) startKeyPos startKeyPos acc2
      else
        let acc2 :=
          if minVersion ≤ currNode.leaf.version ∧ 0 < currNode.leaf.keyBytes.length then
            acc ++ [transform (genKeyValPair currNode)]
          else acc
        iterateChildren recur m currNode.version startKey totalResults
          (currNode.children.drop 0) 0 0 acc2
    else
      let startKeyIdx := getIndexForLevel (skBytes startKey) level
      let startKeyPos := getPosition currNode.bitmap startKeyIdx level
      iterateChildren recur m currNode.version startKey totalResults
        (currNode.children.drop startKeyPos) startKeyPos startKeyPos acc

/-! ## Ghost structure for the traversal proofs -/

mutual

/-- Height of an in-memory trie node (1 for a childless node). -/
def heightI : INode → Nat
  | .mk _ _ _ _ _ cs => heightList cs + 1

/-- Maximum height over a child list. -/
def heightList : List INode → Nat
  | [] => 0
  | c :: cs => max (heightI c) (heightList cs)

end

mutual

/-- The key/value pairs of a trie in depth-first order: the node's own
(non-sentinel) leaf first, then each child subtree left to right.  This is
the committed set S of the spec, in the order the traversal emits it. -/
def trieKVs : INode → List KeyValuePair
  | .mk _ _ _ _ leaf cs =>
      (if leaf.keyBytes = [] then []
       else [{ Key := leaf.keyBytes, Value := leaf.value }]) ++ trieKVsList cs

/-- `trieKVs` over a child list. -/
def trieKVsList : List INode → List KeyValuePair
  | [] => []
  | c :: cs => trieKVs c ++ trieKVsList cs

end

/-- The ascending list of set bit indices of a 256-bit bitmap. -/
def bitsList (bm : List Nat) : List Nat :=
  (List.range 256).filter (fun j => bitmapBit bm j = 1)

/-- Modelled from the spec: a well-formed snapshot of the trie as the
single writer (or an in-pool path) sees it, rooted at path `p`.  Spec
§3: a node's leaf either is the sentinel or holds exactly the key whose
byte decomposition terminates at this node (`key = p`); I1/I2: `children`
is dense and ordered by the bitmap's ascending set bits; I5: an in-pool
node has `startOffset = 0` and the transaction's version, which is what
makes `getChildNode` return every child directly.  `minV` bounds every
leaf version from below so the `minVersion` filter of iterate passes. -/
inductive WFTrie (V minV : Nat) : List Nat → INode → Prop where
  | node : ∀ (p : List Nat) (n : INode),
      n.bitmap.length = 8 →
      n.startOffset = 0 →
      n.version = V →
      minV ≤ n.leaf.version →
      (n.leaf.keyBytes = [] ∨ (n.leaf.keyBytes = p ∧ p ≠ [])) →
      n.children.length = (bitsList n.bitmap).length →
      (∀ i (h1 : i < n.children.length) (h2 : i < (bitsList n.bitmap).length),
        WFTrie V minV (p ++ [(bitsList n.bitmap).get ⟨i, h2⟩]) (n.children.get ⟨i, h1⟩)) →
      WFTrie V minV p n

/-! ## Concrete example data used by witnesses and counterexamples -/

/-- A sentinel leaf at version 7 (the pool zero value after a delete). -/
def exLeafSentinel : LNode :=
  { version := 7, startOffset := 0, endOffset := 0, keyLength := 0, key := none, value := [] }

/-- A leaf holding key "a" = [97]. -/
def exLeafA : LNode :=
  { version := 7, startOffset := 0, endOffset := 0, keyLength := 1, key := some [97], value := [2] }

/-- A leaf holding key "ab" = [97, 98]. -/
def exLeafAB : LNode :=
  { version := 7, startOffset := 0, endOffset := 0, keyLength := 2,
    key := some [97, 98], value := [1] }

/-- Childless node at path [97, 98] holding "ab". -/
def exNodeAB : INode := .mk 7 0 0 [0, 0, 0, 0, 0, 0, 0, 0] exLeafAB []

/-- Node at path [97] holding "a", with one child at byte 98
(bitmap word 3, bit 2). -/
def exNodeA : INode := .mk 7 0 0 [0, 0, 0, 4, 0, 0, 0, 0] exLeafA [exNodeAB]

/-- Root of the example trie holding keys "a" and "ab": one child at
byte 97 (bitmap word 3, bit 1). -/
def exRoot : INode := .mk 7 0 0 [0, 0, 0, 2, 0, 0, 0, 0] exLeafSentinel [exNodeA]

/-- Childless node at path [97] whose leaf is the sentinel: the state the
source leaves behind after inserting and then deleting key "a" (delete
resets the leaf, pruning is not realized). -/
def exNodeSentinel : INode := .mk 7 0 0 [0, 0, 0, 0, 0, 0, 0, 0] exLeafSentinel []

/-- Root whose only child (byte 97) is the sentinel-leaf node. -/
def exRootSentinel : INode := .mk 7 0 0 [0, 0, 0, 2, 0, 0, 0, 0] exLeafSentinel [exNodeSentinel]

/-- A persisted child reference: version 1 at file offset 19. -/
def exRefPersisted : INode := blankChild 19

/-- A persisted sentinel leaf at file offset 0 (version 1). -/
def exLeafPersisted : LNode :=
  { version := 1, startOffset := 0, endOffset := 18, keyLength := 0, key := none, value := [] }

/-- A persisted childless internal node at file offset 19 whose leaf
pointer is offset 0. -/
def exNodePersisted : INode :=
  .mk 1 19 57 [0, 0, 0, 0, 0, 0, 0, 0] exLeafPersisted []

/-- A serialized sentinel leaf (19 bytes) followed by a serialized
childless internal node at offset 19, giving a tiny valid memory map. -/
def exMap : List Nat := serializeLNode exLeafPersisted ++ serializeINode exNodePersisted

/-- What `deserializeINode` yields for `exNodePersisted`'s bytes before the
leaf is materialized: the leaf field is only a startOffset placeholder. -/
def exNodeRawDecoded : INode :=
  .mk 1 19 57 [0, 0, 0, 0, 0, 0, 0, 0]
    { version := 0, startOffset := 0, endOffset := 0, keyLength := 0, key := none, value := [] }
    []

/-- A leaf laid out by the commit pipeline right after `exWriteNode`. -/
def exWriteLeaf : LNode :=
  { version := 2, startOffset := 77, endOffset := 18, keyLength := 0, key := none, value := [] }

/-- A childless node laid out at offset 19 whose leaf follows at 77. -/
def exWriteNode : INode := .mk 2 19 57 [0, 0, 0, 0, 0, 0, 0, 0] exWriteLeaf []

/-- A 96-byte zeroed map with nothing flushed yet. -/
def exWriteState : MariState := { mMap := List.replicate 96 0, flushed := [] }

/-! ## Helper lemmas -/

theorem recover_ne_fault (msg : String) (r : Res α) : recover msg r ≠ Res.fault := by
  cases r <;> simp [recover]

theorem calculateHammingWeight_le (w : Nat) : calculateHammingWeight w ≤ 32 := by
  have h := List.sum_le_card_nsmul ((List.range 32).map (nthBit w)) 1 ?bound
  · simpa using h
  case bound =>
    intro x hx
    simp only [List.mem_map] at hx
    obtain ⟨i, _, rfl⟩ := hx
    simp only [nthBit]
    omega

theorem bitmapPopcount_le (bm : List Nat) : bitmapPopcount bm ≤ bm.length * 32 := by
  have h := List.sum_le_card_nsmul (bm.map calculateHammingWeight) 32 ?bound
  · simpa [bitmapPopcount] using h
  case bound =>
    intro x hx
    simp only [List.mem_map] at hx
    obtain ⟨w, _, rfl⟩ := hx
    exact calculateHammingWeight_le w

/-- C7: `determineEndOffsetLNode` returns `NodeKeyIdx + keyLength + len(value) − 1`
for any leaf with a non-nil key within the u8/u16 size bounds, and
`NodeKeyIdx − 1` for the sentinel leaf (nil key, `keyLength = 0`). -/
theorem determineEndOffsetLNode_spec (n : LNode) :
    (n.key.isSome → n.keyLength ≤ 255 →
      NodeKeyIdx + n.keyLength + n.value.length ≤ 65535 →
      n.determineEndOffsetLNode = NodeKeyIdx + n.keyLength + n.value.length - 1) ∧
    (n.keyLength = 0 → n.key = none → n.determineEndOffsetLNode = NodeKeyIdx - 1) := by
  constructor
  · intro hs _ hbound
    match hk : n.key with
    | none => simp [hk] at hs
    | some k =>
      simp only [LNode.determineEndOffsetLNode, hk, u16sub1, NodeKeyIdx] at *
      omega
  · intro _ hk
    simp only [LNode.determineEndOffsetLNode, hk, u16sub1, NodeKeyIdx]

theorem determineEndOffsetLNode_spec_witness :
    exLeafAB.determineEndOffsetLNode = NodeKeyIdx + exLeafAB.keyLength +
      exLeafAB.value.length - 1 ∧
    exLeafSentinel.determineEndOffsetLNode = NodeKeyIdx - 1 := by
  constructor
  · exact (determineEndOffsetLNode_spec exLeafAB).1 (by decide) (by decide) (by decide)
  · exact (determineEndOffsetLNode_spec exLeafSentinel).2 (by decide) (by decide)

/-- C8: `determineEndOffsetINode` returns
`NodeChildrenIdx + popcount(bitmap) * 8 − 1` when the eight-word bitmap has
a set bit, and `NodeChildrenIdx − 1` when it is empty. -/
theorem determineEndOffsetINode_spec (n : INode) (h8 : n.bitmap.length = 8) :
    (bitmapPopcount n.bitmap = 0 →
      n.determineEndOffsetINode = NodeChildrenIdx - 1) ∧
    (0 < bitmapPopcount n.bitmap →
      n.determineEndOffsetINode = NodeChildrenIdx + bitmapPopcount n.bitmap * 8 - 1) := by
  have hle : bitmapPopcount n.bitmap ≤ 256 := by
    have := bitmapPopcount_le n.bitmap
    omega
  constructor
  · intro h0
    simp only [INode.determineEndOffsetINode, h0, NodeChildPtrSize, NodeChildrenIdx, u16sub1]
    norm_num
  · intro hpos
    simp only [INode.determineEndOffsetINode, NodeChildPtrSize, NodeChildrenIdx, u16sub1]
    have hne : bitmapPopcount n.bitmap * 8 ≠ 0 := by omega
    simp only [hne, if_pos, ne_eq, not_false_iff]
    omega

theorem determineEndOffsetINode_spec_witness :
    exNodeAB.determineEndOffsetINode = NodeChildrenIdx - 1 ∧
    exNodeA.determineEndOffsetINode =
      NodeChildrenIdx + bitmapPopcount exNodeA.bitmap * 8 - 1 := by
  constructor
  · exact (determineEndOffsetINode_spec exNodeAB (by decide)).1 (by decide)
  · exact (determineEndOffsetINode_spec exNodeA (by decide)).2 (by decide)

/-- C9: none of the memory-map node readers/writers can surface a panic:
each is the recover wrapper applied to its body, so for every input,
including out-of-bounds offsets, the result is `ok` or a generic error —
never `fault`. -/
theorem memMapAccess_no_fault (m : MMap) (off : Nat) (st : MariState)
    (n : INode) (ln : LNode) (snodes : List Nat) (o : Nat) :
    readINodeFromMemMap m off ≠ Res.fault ∧
    readLNodeFromMemMap m off ≠ Res.fault ∧
    writeINodeToMemMap st n ≠ Res.fault ∧
    writeLNodeToMemMap st ln ≠ Res.fault ∧
    writeNodesToMemMap st snodes o ≠ Res.fault :=
  ⟨recover_ne_fault _ _, recover_ne_fault _ _, recover_ne_fault _ _,
    recover_ne_fault _ _, recover_ne_fault _ _⟩

/-- C10: `copyINode` preserves version, bitmap, leaf and the children list
(same length, same references, same order), hence it preserves the
`len(children) = popcount(bitmap)` invariant. -/
theorem copyINode_spec (fresh node : INode) :
    (copyINode fresh node).version = node.version ∧
    (copyINode fresh node).bitmap = node.bitmap ∧
    (copyINode fresh node).leaf = node.leaf ∧
    (copyINode fresh node).children = node.children ∧
    (node.children.length = bitmapPopcount node.bitmap →
      (copyINode fresh node).children.length =
        bitmapPopcount (copyINode fresh node).bitmap) := by
  cases fresh with
  | mk v so eo bm l cs =>
    refine ⟨rfl, rfl, rfl, rfl, ?_⟩
    intro h
    simpa [copyINode, INode.children, INode.bitmap] using h

theorem copyINode_spec_witness :
    (copyINode exNodePersisted exNodeA).children.length =
      bitmapPopcount (copyINode exNodePersisted exNodeA).bitmap :=
  (copyINode_spec exNodePersisted exNodeA).2.2.2.2 (by decide)

/-- C5: `getChildNode` returns the reference itself exactly when
`ref.version = version` and `ref.startOffset = 0` (an in-pool node on the
current path); otherwise it delegates to `readINodeFromMemMap`, which
deserializes the internal node at `ref.startOffset`, then deserializes its
leaf from `leaf.startOffset`, propagating the error when either
deserialization fails. -/
theorem getChildNode_spec (m : MMap) (ref : INode) (v : Nat) :
    (ref.version = v ∧ ref.startOffset = 0 → getChildNode m ref v = Res.ok ref) ∧
    (¬(ref.version = v ∧ ref.startOffset = 0) →
      getChildNode m ref v = readINodeFromMemMap m ref.startOffset) ∧
    (∀ n0 leaf, readINodeRaw m ref.startOffset = Res.ok n0 →
      readLNodeFromMemMap m n0.leaf.startOffset = Res.ok leaf →
      readINodeFromMemMap m ref.startOffset = Res.ok (n0.withLeaf leaf)) ∧
    (∀ e, readINodeRaw m ref.startOffset = Res.err e →
      readINodeFromMemMap m ref.startOffset = Res.err e) ∧
    (∀ n0 e, readINodeRaw m ref.startOffset = Res.ok n0 →
      readLNodeFromMemMap m n0.leaf.startOffset = Res.err e →
      readINodeFromMemMap m ref.startOffset = Res.err e) := by
  refine ⟨?_, ?_, ?_, ?_, ?_⟩
  · intro h
    simp [getChildNode, h.1, h.2]
  · intro h
    simp only [getChildNode, if_neg h]
  · intro n0 leaf h1 h2
    simp [readINodeFromMemMap, h1, h2, recover]
  · intro e h1
    simp [readINodeFromMemMap, h1, recover]
  · intro n0 e h1 h2
    simp [readINodeFromMemMap, h1, h2, recover]

theorem getChildNode_spec_witness :
    getChildNode exMap exNodeA exNodeA.version = Res.ok exNodeA ∧
    getChildNode exMap exRefPersisted 1 = readINodeFromMemMap exMap 19 ∧
    readINodeFromMemMap exMap 19 =
      Res.ok (exNodeRawDecoded.withLeaf exLeafPersisted) := by
  refine ⟨?_, ?_, ?_⟩
  · exact (getChildNode_spec exMap exNodeA exNodeA.version).1 ⟨rfl, by decide⟩
  · have h := (getChildNode_spec exMap exRefPersisted 1).2.1 (by decide)
    simpa using h
  · exact (getChildNode_spec exMap exRefPersisted 1).2.2.1 exNodeRawDecoded
      exLeafPersisted (by rfl) (by decide)

theorem writeBytes_length (m src : List Nat) (a k : Nat)
    (h1 : a + k ≤ m.length) (h2 : k ≤ src.length) :
    (writeBytes m a src k).length = m.length := by
  simp only [writeBytes, List.length_append, List.length_take, List.length_drop]
  omega

theorem extract_writeBytes_self (m src : List Nat) (a k : Nat)
    (h1 : a + k ≤ m.length) (h2 : k ≤ src.length) :
    extract (writeBytes m a src k) a k = src.take k := by
  have hta : (m.take a).length = a := by
    simp only [List.length_take]
    omega
  have htk : (src.take k).length = k := by
    simp only [List.length_take]
    omega
  have hemp : (m.take a).drop a = [] := List.drop_of_length_le (le_of_eq hta)
  simp only [extract, writeBytes, List.append_assoc]
  rw [List.drop_append_eq_append_drop, hta, Nat.sub_self, List.drop_zero, hemp,
    List.nil_append, List.take_append_eq_append_take, htk, Nat.sub_self,
    List.take_zero, List.append_nil, List.take_take, min_self]

theorem extract_writeBytes_before (m src : List Nat) (a k so len : Nat)
    (h : so + len ≤ a) (ha : a ≤ m.length) :
    extract (writeBytes m a src k) so len = extract m so len := by
  have hta : (m.take a).length = a := by
    simp only [List.length_take]
    omega
  simp only [extract, writeBytes, List.append_assoc]
  rw [List.drop_append_eq_append_drop, List.take_append_eq_append_take]
  have hlen2 : ((m.take a).drop so).length = a - so := by
    simp only [List.length_drop, hta]
  have hz : len - ((m.take a).drop so).length = 0 := by omega
  rw [hz, List.take_zero, List.append_nil, List.drop_take, List.take_take]
  congr 1
  omega

theorem writeLNodePost_mMap (st : MariState) (ln : LNode) :
    (writeLNodePost st ln).mMap =
      writeBytes st.mMap ln.startOffset (serializeLNode ln) (serializeLNode ln).length := rfl

theorem writeLNodePost_flushed (st : MariState) (ln : LNode) :
    (writeLNodePost st ln).flushed =
      (ln.startOffset, ln.getEndOffsetLNode) :: st.flushed := rfl

theorem writeINodeMapped_mMap (st : MariState) (n : INode) :
    (writeINodeMapped st n).mMap =
      writeBytes st.mMap n.startOffset (serializeINode n)
        (min (n.leaf.startOffset + 1 - n.startOffset) (serializeINode n).length) := rfl

theorem writeINodeMapped_flushed (st : MariState) (n : INode) :
    (writeINodeMapped st n).flushed =
      (n.startOffset, n.getEndOffsetINode) :: st.flushed := rfl

theorem writeLNodeToMemMap_spec (st : MariState) (ln : LNode)
    (hel : ln.endOffset + 1 = (serializeLNode ln).length)
    (hfit : ln.startOffset + ln.endOffset + 1 ≤ st.mMap.length) :
    writeLNodeToMemMap st ln = Res.ok (writeLNodePost st ln, ln.getEndOffsetLNode + 1) := by
  have hcond : ln.startOffset ≤ ln.getEndOffsetLNode + 1 ∧
      ln.getEndOffsetLNode + 1 ≤ st.mMap.length := by
    unfold LNode.getEndOffsetLNode
    omega
  have hmin : min (ln.getEndOffsetLNode + 1 - ln.startOffset) (serializeLNode ln).length =
      (serializeLNode ln).length := by
    unfold LNode.getEndOffsetLNode
    omega
  unfold writeLNodeToMemMap writeLNodePost
  rw [if_pos hcond, hmin]
  simp [recover]

/-- C6: when `writeINodeToMemMap` is run on a node laid out by the commit
pipeline (assigned nonzero `startOffset`, `endOffset` matching its
serialized length, leaf assigned the bytes immediately after the node, all
within the map), it succeeds, the bytes
`[startOffset, startOffset + endOffset]` of the resulting map are exactly
the serialized encoding of the node, that region has been flushed, and the
leaf's serialized bytes have subsequently been written at the leaf's own
`startOffset` (and flushed). -/
theorem writeINodeToMemMap_spec (st : MariState) (n : INode)
    (hso : 0 < n.startOffset)
    (hei : n.endOffset + 1 = (serializeINode n).length)
    (hleafso : n.leaf.startOffset = n.startOffset + n.endOffset + 1)
    (hel : n.leaf.endOffset + 1 = (serializeLNode n.leaf).length)
    (hfit : n.leaf.startOffset + n.leaf.endOffset + 1 ≤ st.mMap.length) :
    ∃ st2 : MariState,
      writeINodeToMemMap st n = Res.ok (st2, n.leaf.getEndOffsetLNode + 1) ∧
      extract st2.mMap n.startOffset (n.endOffset + 1) = serializeINode n ∧
      (n.startOffset, n.getEndOffsetINode) ∈ st2.flushed ∧
      extract st2.mMap n.leaf.startOffset (n.leaf.endOffset + 1) = serializeLNode n.leaf ∧
      (n.leaf.startOffset, n.leaf.getEndOffsetLNode) ∈ st2.flushed := by
  have hcond : n.startOffset ≤ n.leaf.startOffset + 1 ∧
      n.leaf.startOffset + 1 ≤ st.mMap.length := by omega
  have hmin : min (n.leaf.startOffset + 1 - n.startOffset) (serializeINode n).length =
      (serializeINode n).length := by omega
  have hmapped : (writeINodeMapped st n).mMap =
      writeBytes st.mMap n.startOffset (serializeINode n) (serializeINode n).length := by
    rw [writeINodeMapped_mMap, hmin]
  have hlen0 : (writeBytes st.mMap n.startOffset (serializeINode n)
      (serializeINode n).length).length = st.mMap.length :=
    writeBytes_length _ _ _ _ (by omega) (le_refl _)
  have hlen1 : (writeINodeMapped st n).mMap.length = st.mMap.length := by
    rw [hmapped]
    exact hlen0
  unfold writeINodeToMemMap
  rw [if_pos hcond]
  rw [writeLNodeToMemMap_spec _ _ hel (by omega)]
  refine ⟨writeLNodePost (writeINodeMapped st n) n.leaf, by simp [recover], ?_, ?_, ?_, ?_⟩
  · rw [writeLNodePost_mMap, hmapped, hei]
    rw [extract_writeBytes_before _ _ _ _ _ _ (by omega) (by omega)]
    rw [extract_writeBytes_self _ _ _ _ (by omega) (le_refl _)]
    exact List.take_of_length_le (le_refl _)
  · rw [writeLNodePost_flushed, writeINodeMapped_flushed]
    simp
  · rw [writeLNodePost_mMap, hel]
    rw [extract_writeBytes_self _ _ _ _ (by omega) (le_refl _)]
    exact List.take_of_length_le (le_refl _)
  · rw [writeLNodePost_flushed]
    simp

theorem writeINodeToMemMap_spec_witness :
    ∃ st2 : MariState,
      writeINodeToMemMap exWriteState exWriteNode =
        Res.ok (st2, exWriteNode.leaf.getEndOffsetLNode + 1) ∧
      extract st2.mMap exWriteNode.startOffset (exWriteNode.endOffset + 1) =
        serializeINode exWriteNode ∧
      (exWriteNode.startOffset, exWriteNode.getEndOffsetINode) ∈ st2.flushed ∧
      extract st2.mMap exWriteNode.leaf.startOffset (exWriteNode.leaf.endOffset + 1) =
        serializeLNode exWriteNode.leaf ∧
      (exWriteNode.leaf.startOffset, exWriteNode.leaf.getEndOffsetLNode) ∈ st2.flushed :=
  writeINodeToMemMap_spec exWriteState exWriteNode (by decide) (by decide) (by decide)
    (by decide) (by decide)

/-! ## C4: the limit is respected at every recursion boundary -/

theorem iterateChildren_ok_length
    (recur : INode → Option (List Nat) → List KeyValuePair → Res (List KeyValuePair))
    (m : MMap) (currV : Nat) (sk : Option (List Nat)) (T : Nat)
    (hrec : ∀ c s a res, a.length ≤ T → recur c s a = Res.ok res → res.length ≤ T) :
    ∀ (cs : List INode) (currPos skp : Nat) (acc res : List KeyValuePair),
      acc.length ≤ T →
      iterateChildren recur m currV sk T cs currPos skp acc = Res.ok res →
      res.length ≤ T := by
  intro cs
  induction cs with
  | nil =>
    intro currPos skp acc res hacc h
    simp only [iterateChildren, Res.ok.injEq] at h
    subst h
    exact hacc
  | cons c rest ih =>
    intro currPos skp acc res hacc h
    simp only [iterateChildren] at h
    split at h
    · split at h
      · exact absurd h (by simp)
      · exact absurd h (by simp)
      · rename_i childNode heq
        split at h
        · rename_i acc2 hb
          split at hb
          · exact ih _ _ _ _ (hrec _ _ _ _ hacc hb) h
          · exact ih _ _ _ _ (hrec _ _ _ _ hacc hb) h
        · exact absurd h (by simp)
        · exact absurd h (by simp)
    · simp only [Res.ok.injEq] at h
      subst h
      exact hacc

/-- C4: for every start key, limit, level and accumulator not already past
the limit, a successful `iterateRecursive` returns at most `totalResults`
pairs: the length bound is re-established at every recursion boundary
(this needs no well-formedness of the tree at all — the check
`totalResults == len(acc)` and the loop guard alone enforce it). -/
theorem iterateRecursive_ok_length :
    ∀ (fuel : Nat) (m : MMap) (node : INode) (minV : Nat) (sk : Option (List Nat))
      (T level : Nat) (acc : List KeyValuePair) (t : KeyValuePair → KeyValuePair)
      (res : List KeyValuePair),
      acc.length ≤ T →
      iterateRecursive m fuel node minV sk T level acc t = Res.ok res →
      res.length ≤ T := by
  intro fuel
  induction fuel with
  | zero =>
    intro m node minV sk T level acc t res hacc h
    exact absurd h (by simp [iterateRecursive])
  | succ fuel ih =>
    intro m node minV sk T level acc t res hacc h
    have hrec : ∀ (c : INode) (s : Option (List Nat)) (a : List KeyValuePair)
        (r : List KeyValuePair), a.length ≤ T →
        iterateRecursive m fuel c minV s T (level + 1) a t = Res.ok r → r.length ≤ T :=
      fun c s a r ha hh => ih m c minV s T (level + 1) a t r ha hh
    simp only [iterateRecursive] at h
    split at h
    · split at h
      · simp only [Res.ok.injEq] at h
        subst h
        exact hacc
      · split at h
        · refine iterateChildren_ok_length _ m node.version sk T hrec _ _ _ _ _ ?_ h
          split
          · simpa using Nat.lt_of_le_of_ne hacc (by omega)
          · exact hacc
        · split at h
          · refine iterateChildren_ok_length _ m node.version sk T hrec _ _ _ _ _ ?_ h
            split
            · split
              · simpa using Nat.lt_of_le_of_ne hacc (by omega)
              · exact hacc
            · exact hacc
          · refine iterateChildren_ok_length _ m node.version sk T hrec _ _ _ _ _ ?_ h
            split
            · simpa using Nat.lt_of_le_of_ne hacc (by omega)
            · exact hacc
    · exact iterateChildren_ok_length _ m node.version sk T hrec _ _ _ _ _ hacc h

theorem iterateRecursive_ok_length_witness :
    iterateRecursive [] 10 exRoot 0 none 1 0 [] idT =
      Res.ok [{ Key := [97], Value := [2] }] ∧
    ([{ Key := [97], Value := [2] }] : List KeyValuePair).length ≤ 1 :=
  ⟨by decide,
   iterateRecursive_ok_length 10 [] exRoot 0 none 1 0 [] idT _ (by decide) (by decide)⟩

/-! ## Lexicographic comparison lemmas -/

theorem bytesCompare_refl (a : List Nat) : bytesCompare a a = Ordering.eq := by
  induction a with
  | nil => rfl
  | cons x xs ih => simp [bytesCompare, ih]

theorem bytesCompare_nil_ne_lt (a : List Nat) : bytesCompare a [] ≠ Ordering.lt := by
  cases a <;> simp [bytesCompare]

/-- A proper extension of `p` compares strictly greater than `p`. -/
theorem bytesCompare_lt_extension (p : List Nat) (b : Nat) (x : List Nat) :
    bytesCompare p (p ++ b :: x) = Ordering.lt := by
  induction p with
  | nil => simp [bytesCompare]
  | cons a p ih => simp [bytesCompare, ih]

/-- Two keys diverging at byte `b < b'` after a common prefix compare `lt`. -/
theorem bytesCompare_lt_diverge (p : List Nat) (b b' : Nat) (x y : List Nat)
    (h : b < b') : bytesCompare (p ++ b :: x) (p ++ b' :: y) = Ordering.lt := by
  induction p with
  | nil => simp [bytesCompare, h]
  | cons a p ih => simp [bytesCompare, ih]

/-- The master lower-bound lemma: `key` is not below `sk` whenever the two
agree pointwise-`≥` below `j` and either `sk` is exhausted within `key` by
then, or they diverge strictly upward at `j`. -/
theorem bytesCompare_ne_lt (sk key : List Nat) (j : Nat)
    (hpw : ∀ i, i < j → i < sk.length → i < key.length → sk.getD i 0 ≤ key.getD i 0)
    (hend : (sk.length ≤ key.length ∧ sk.length ≤ j) ∨
      (j < sk.length ∧ j < key.length ∧ sk.getD j 0 < key.getD j 0)) :
    bytesCompare key sk ≠ Ordering.lt := by
  induction sk generalizing key j with
  | nil => exact bytesCompare_nil_ne_lt key
  | cons s sk ih =>
    match key with
    | [] =>
      exfalso
      rcases hend with ⟨h1, _⟩ | ⟨_, h2, _⟩
      · simp at h1
      · simp at h2
    | k :: key =>
      have h0 : s ≤ k := by
        rcases hend with ⟨h1, h2⟩ | ⟨h1, h2, h3⟩
        · have := hpw 0 (by simp at h2 ⊢; omega) (by simp) (by simp)
          simpa using this
        · match j with
          | 0 => simpa using le_of_lt h3
          | j + 1 =>
            have := hpw 0 (by omega) (by simp) (by simp)
            simpa using this
      simp only [bytesCompare]
      rcases Nat.lt_or_ge s k with hsk | hks
      · simp [Nat.not_lt_of_lt hsk, hsk]
      · have hse : s = k := le_antisymm h0 hks
        subst hse
        simp only [Nat.lt_irrefl, if_false]
        match j with
        | 0 =>
          rcases hend with ⟨h1, h2⟩ | ⟨_, _, h3⟩
          · simp at h2
          · simp at h3
        | j + 1 =>
          refine ih key j (fun i hi h1 h2 => ?_) ?_
          · have := hpw (i + 1) (by omega) (by simpa using h1) (by simpa using h2)
            simpa using this
          · rcases hend with ⟨h1, h2⟩ | ⟨h1, h2, h3⟩
            · left
              constructor
              · simpa using h1
              · simpa using h2
            · right
              refine ⟨by simpa using h1, by simpa using h2, by simpa using h3⟩

/-! ## Bitmap rank lemmas -/

theorem bitmapBit_le_one (bm : List Nat) (i : Nat) : bitmapBit bm i ≤ 1 := by
  simp only [bitmapBit, nthBit]
  omega

theorem bitmapBit_zero_of_ge (bm : List Nat) (h8 : bm.length = 8) (i : Nat)
    (hi : 256 ≤ i) : bitmapBit bm i = 0 := by
  have hnone : bm[i / 32]? = none := by
    apply List.getElem?_eq_none
    rw [h8]
    omega
  simp [bitmapBit, hnone, nthBit]

theorem sumBits_eq (bm : List Nat) (k : Nat) :
    ((List.range k).map (bitmapBit bm)).sum =
      ((List.range k).filter (fun j => bitmapBit bm j = 1)).length := by
  induction k with
  | zero => rfl
  | succ k ih =>
    rw [List.range_succ]
    by_cases h : bitmapBit bm k = 1
    · simp [List.filter_append, ih, h]
    · have h0 : bitmapBit bm k = 0 := by
        have := bitmapBit_le_one bm k
        omega
      simp [List.filter_append, ih, h0]

theorem bitsList_pairwise (bm : List Nat) : (bitsList bm).Pairwise (· < ·) :=
  (List.pairwise_lt_range 256).sublist (List.filter_sublist _)

/-- Every set bit at rank `getPosition bm idx` or later has index at least
`idx`: the cursor child is the first child whose byte is `≥ startKey[level]`. -/
theorem bits_drop_ge (bm : List Nat) (h8 : bm.length = 8) (idx lvl : Nat) :
    ∀ b ∈ (bitsList bm).drop (getPosition bm idx lvl), idx ≤ b := by
  rcases le_or_lt idx 256 with hle | hgt
  · have hsplit : List.range 256 = List.range idx ++ (List.range (256 - idx)).map (idx + ·) := by
      rw [← List.range_add]
      congr 1
      omega
    have hbits : bitsList bm =
        (List.range idx).filter (fun j => bitmapBit bm j = 1) ++
          ((List.range (256 - idx)).map (idx + ·)).filter (fun j => bitmapBit bm j = 1) := by
      rw [bitsList, hsplit, List.filter_append]
    have hpos : getPosition bm idx lvl =
        ((List.range idx).filter (fun j => bitmapBit bm j = 1)).length := by
      rw [getPosition, sumBits_eq]
    intro b hb
    rw [hbits, hpos, List.drop_left] at hb
    have := List.mem_of_mem_filter hb
    simp only [List.mem_map] at this
    obtain ⟨j, _, rfl⟩ := this
    omega
  · have hzero : ∀ j ∈ (List.range (idx - 256)).map (256 + ·), bitmapBit bm j = 0 := by
      intro j hj
      simp only [List.mem_map] at hj
      obtain ⟨i, _, rfl⟩ := hj
      exact bitmapBit_zero_of_ge bm h8 _ (by omega)
    have hsplit : List.range idx = List.range 256 ++ (List.range (idx - 256)).map (256 + ·) := by
      conv_lhs => rw [show idx = 256 + (idx - 256) by omega]
      exact List.range_add 256 (idx - 256)
    have hlen : (bitsList bm).length ≤ getPosition bm idx lvl := by
      rw [getPosition, hsplit, List.map_append, List.sum_append]
      rw [bitsList, ← sumBits_eq]
      omega
    intro b hb
    rw [List.drop_eq_nil_of_le hlen] at hb
    simp at hb

/-! ## Trie structure lemmas -/

theorem heightI_pos (n : INode) : 1 ≤ heightI n := by
  cases n
  simp [heightI]

theorem heightI_eq (n : INode) : heightI n = heightList n.children + 1 := by
  cases n
  simp [heightI, INode.children]

theorem heightList_mem (cs : List INode) (c : INode) (hc : c ∈ cs) :
    heightI c ≤ heightList cs := by
  induction cs with
  | nil => simp at hc
  | cons x xs ih =>
    rcases List.mem_cons.1 hc with rfl | hmem
    · simp [heightList, Nat.le_max_left]
    · calc heightI c ≤ heightList xs := ih hmem
        _ ≤ heightList (x :: xs) := by simp [heightList, Nat.le_max_right]

theorem trieKVs_eq (n : INode) :
    trieKVs n = (if n.leaf.keyBytes = [] then []
      else [{ Key := n.leaf.keyBytes, Value := n.leaf.value }]) ++ trieKVsList n.children := by
  cases n
  simp [trieKVs, INode.leaf, INode.children]

theorem trieKVsList_nil : trieKVsList [] = [] := rfl

theorem trieKVsList_cons (c : INode) (cs : List INode) :
    trieKVsList (c :: cs) = trieKVs c ++ trieKVsList cs := by
  simp [trieKVsList]

theorem wf_children_forall2 {V mv : Nat} {p : List Nat} {n : INode}
    (hwf : WFTrie V mv p n) :
    List.Forall₂ (fun b c => WFTrie V mv (p ++ [b]) c) (bitsList n.bitmap) n.children := by
  cases hwf with
  | node p n hbm hso hv hlv hlk hlen hch =>
    rw [List.forall₂_iff_get]
    exact ⟨hlen.symm, fun i h1 h2 => hch i h2 h1⟩

/-- The emitted order of a list of sibling subtrees indexed by ascending
bytes `bs` is sorted, and every key in it extends the parent path by its
subtree's byte. -/
theorem kvsList_facts (p : List Nat) :
    ∀ (bs : List Nat) (cs : List INode),
      List.Forall₂ (fun b c => (∀ kv ∈ trieKVs c, ∃ rest, kv.Key = p ++ b :: rest) ∧
        List.Pairwise (fun x y => bytesCompare x.Key y.Key = Ordering.lt) (trieKVs c))
        bs cs →
      bs.Pairwise (· < ·) →
      (∀ kv ∈ trieKVsList cs, ∃ b, b ∈ bs ∧ ∃ rest, kv.Key = p ++ b :: rest) ∧
      List.Pairwise (fun x y => bytesCompare x.Key y.Key = Ordering.lt) (trieKVsList cs) := by
  intro bs cs hf
  induction hf with
  | nil =>
    intro _
    simp [trieKVsList]
  | cons hbc hrest ih =>
    rename_i b c bs' cs'
    intro hp
    obtain ⟨ihShape, ihSorted⟩ := ih (hp.sublist (List.sublist_cons_self b bs'))
    have hblt : ∀ b' ∈ bs', b < b' := fun b' hb' => (List.pairwise_cons.1 hp).1 b' hb'
    constructor
    · intro kv hkv
      rw [trieKVsList_cons, List.mem_append] at hkv
      rcases hkv with hin | hin
      · exact ⟨b, List.mem_cons_self b bs', hbc.1 kv hin⟩
      · obtain ⟨b', hb', rest, hkey⟩ := ihShape kv hin
        exact ⟨b', List.mem_cons_of_mem b hb', rest, hkey⟩
    · rw [trieKVsList_cons, List.pairwise_append]
      refine ⟨hbc.2, ihSorted, ?_⟩
      intro x hx y hy
      obtain ⟨rx, hxk⟩ := hbc.1 x hx
      obtain ⟨b', hb', ry, hyk⟩ := ihShape y hy
      rw [hxk, hyk]
      exact bytesCompare_lt_diverge p b b' rx ry (hblt b' hb')

/-- Key facts of a well-formed subtree at path `p`: every emitted key is
either exactly `p` (the node's own leaf) or extends `p` by at least one
byte, and the depth-first emission order `trieKVs` is strictly sorted. -/
theorem wf_facts {V mv : Nat} :
    ∀ (h : Nat) (n : INode) (p : List Nat), heightI n ≤ h → WFTrie V mv p n →
      (∀ kv ∈ trieKVs n, (kv.Key = p ∧ p ≠ []) ∨ ∃ b rest, kv.Key = p ++ b :: rest) ∧
      List.Pairwise (fun x y => bytesCompare x.Key y.Key = Ordering.lt) (trieKVs n) := by
  intro h
  induction h with
  | zero =>
    intro n p hh _
    exact absurd hh (by have := heightI_pos n; omega)
  | succ h ih =>
    intro n p hh hwf
    have hf2 := wf_children_forall2 hwf
    have hf3 : List.Forall₂ (fun b c => (∀ kv ∈ trieKVs c, ∃ rest, kv.Key = p ++ b :: rest) ∧
        List.Pairwise (fun x y => bytesCompare x.Key y.Key = Ordering.lt) (trieKVs c))
        (bitsList n.bitmap) n.children := by
      rw [List.forall₂_iff_get] at hf2 ⊢
      refine ⟨hf2.1, fun i h1 h2 => ?_⟩
      have hwfc := hf2.2 i h1 h2
      have hhc : heightI (n.children.get ⟨i, h2⟩) ≤ h := by
        have h1' := heightList_mem n.children _ (List.get_mem n.children i h2)
        have := heightI_eq n
        omega
      obtain ⟨hshape, hsorted⟩ := ih _ _ hhc hwfc
      refine ⟨fun kv hkv => ?_, hsorted⟩
      rcases hshape kv hkv with ⟨hk, _⟩ | ⟨b', rest, hk⟩
      · exact ⟨[], by simpa using hk⟩
      · exact ⟨b' :: rest, by simpa [List.append_assoc] using hk⟩
    obtain ⟨hlshape, hlsorted⟩ := kvsList_facts p _ _ hf3 (bitsList_pairwise n.bitmap)
    have hleafdisj : n.leaf.keyBytes = [] ∨ (n.leaf.keyBytes = p ∧ p ≠ []) := by
      cases hwf with
      | node _ _ hbm hso hv hlv hlk hlen hch => exact hlk
    constructor
    · intro kv hkv
      rw [trieKVs_eq, List.mem_append] at hkv
      rcases hkv with hown | hin
      · rcases hleafdisj with hkb | ⟨hkb, hp⟩
        · simp [hkb] at hown
        · rw [hkb] at hown
          split at hown
          · simp at hown
          · simp only [List.mem_singleton] at hown
            left
            exact ⟨by rw [hown], hp⟩
      · obtain ⟨b, _, rest, hkey⟩ := hlshape kv hin
        exact Or.inr ⟨b, rest, hkey⟩
    · rw [trieKVs_eq, List.pairwise_append]
      refine ⟨?_, hlsorted, ?_⟩
      · split <;> simp
      · intro x hx y hy
        rcases hleafdisj with hkb | ⟨hkb, hp⟩
        · simp [hkb] at hx
        · rw [hkb] at hx
          split at hx
          · simp at hx
          · simp at hx
            obtain ⟨b, _, rest, hkey⟩ := hlshape y hy
            rw [hx, hkey]
            exact bytesCompare_lt_extension p b rest

theorem wf_version {V mv : Nat} {p : List Nat} {n : INode} (h : WFTrie V mv p n) :
    n.version = V := by
  cases h with
  | node _ _ hbm hso hv hlv hlk hlen hch => exact hv

theorem wf_startOffset {V mv : Nat} {p : List Nat} {n : INode} (h : WFTrie V mv p n) :
    n.startOffset = 0 := by
  cases h with
  | node _ _ hbm hso hv hlv hlk hlen hch => exact hso

theorem wf_leafVersion {V mv : Nat} {p : List Nat} {n : INode} (h : WFTrie V mv p n) :
    mv ≤ n.leaf.version := by
  cases h with
  | node _ _ hbm hso hv hlv hlk hlen hch => exact hlv

theorem wf_leafKey {V mv : Nat} {p : List Nat} {n : INode} (h : WFTrie V mv p n) :
    n.leaf.keyBytes = [] ∨ (n.leaf.keyBytes = p ∧ p ≠ []) := by
  cases h with
  | node _ _ hbm hso hv hlv hlk hlen hch => exact hlk

theorem wf_bitmap8 {V mv : Nat} {p : List Nat} {n : INode} (h : WFTrie V mv p n) :
    n.bitmap.length = 8 := by
  cases h with
  | node _ _ hbm hso hv hlv hlk hlen hch => exact hbm

/-- An in-pool child (I5) is returned directly by `getChildNode`. -/
theorem getChildNode_wf {V mv : Nat} {p : List Nat} {c : INode} (m : MMap)
    (h : WFTrie V mv p c) : getChildNode m c V = Res.ok c := by
  simp [getChildNode, wf_version h, wf_startOffset h]

theorem wf_children_forall2h {V mv : Nat} {p : List Nat} {n : INode} {fuel : Nat}
    (hwf : WFTrie V mv p n) (hh : heightI n ≤ fuel + 1) :
    List.Forall₂ (fun b c => WFTrie V mv (p ++ [b]) c ∧ heightI c ≤ fuel)
      (bitsList n.bitmap) n.children := by
  have hf2 := wf_children_forall2 hwf
  rw [List.forall₂_iff_get] at hf2 ⊢
  refine ⟨hf2.1, fun i h1 h2 => ⟨hf2.2 i h1 h2, ?_⟩⟩
  have h1' := heightList_mem n.children _ (List.get_mem n.children i h2)
  have := heightI_eq n
  omega

/-- The child loop of iterate with a nil start key: under well-formedness
at a single version, it appends exactly the next `T - len(acc)` pairs of
the subtrees' depth-first emission. -/
theorem iterateChildren_none_eq {V minV : Nat} (m : MMap) (fuel T level : Nat)
    (t : KeyValuePair → KeyValuePair) (p : List Nat)
    (hrec : ∀ (c : INode) (p' : List Nat) (acc : List KeyValuePair),
      WFTrie V minV p' c → heightI c ≤ fuel → p'.length = level + 1 → acc.length ≤ T →
      iterateRecursive m fuel c minV none T (level + 1) acc t =
        Res.ok (acc ++ ((trieKVs c).map t).take (T - acc.length))) :
    ∀ (bs : List Nat) (cs : List INode) (currPos skp : Nat) (acc : List KeyValuePair),
      List.Forall₂ (fun b c => WFTrie V minV (p ++ [b]) c ∧ heightI c ≤ fuel) bs cs →
      p.length = level → acc.length ≤ T →
      iterateChildren (fun child sk a =>
          iterateRecursive m fuel child minV sk T (level + 1) a t) m V none T
        cs currPos skp acc =
        Res.ok (acc ++ ((trieKVsList cs).map t).take (T - acc.length)) := by
  intro bs cs
  induction cs generalizing bs with
  | nil =>
    intro currPos skp acc _ _ _
    simp [iterateChildren, trieKVsList]
  | cons c cs' ih =>
    intro currPos skp acc hf hp hacc
    rcases hf with _ | ⟨⟨hwfc, hhc⟩, hrest⟩
    rename_i b bs'
    simp only [iterateChildren]
    by_cases hlt : acc.length < T
    · rw [if_pos hlt, getChildNode_wf m hwfc]
      simp only [Option.isSome_none, Bool.false_eq_true, and_false, if_false]
      rw [hrec c (p ++ [b]) acc hwfc hhc (by simp [hp]) hacc]
      have hacc2 : (acc ++ ((trieKVs c).map t).take (T - acc.length)).length ≤ T := by
        simp only [List.length_append, List.length_take, List.length_map]
        omega
      split
      · rename_i acc2 heq
        injection heq with heq2
        subst heq2
        rw [ih bs' (currPos + 1) skp _ hrest hp hacc2]
        have hidx : T - (acc ++ ((trieKVs c).map t).take (T - acc.length)).length =
            T - acc.length - ((trieKVs c).map t).length := by
          simp only [List.length_append, List.length_take, List.length_map]
          omega
        rw [hidx, trieKVsList_cons, List.map_append, List.take_append_eq_append_take,
          List.append_assoc]
      · rename_i e heq
        exact absurd heq (by simp)
      · rename_i heq
        exact absurd heq (by simp)
    · rw [if_neg hlt]
      have : T - acc.length = 0 := by omega
      simp [this]

/-- With a nil start key at any level ≥ 1, iterate emits exactly the next
`totalResults - len(acc)` pairs of the subtree's depth-first order,
appended to the accumulator. -/
theorem iterate_none_eq {V minV : Nat} :
    ∀ (fuel : Nat) (m : MMap) (n : INode) (p : List Nat) (T level : Nat)
      (acc : List KeyValuePair) (t : KeyValuePair → KeyValuePair),
      WFTrie V minV p n → heightI n ≤ fuel → p.length = level → 1 ≤ level →
      acc.length ≤ T →
      iterateRecursive m fuel n minV none T level acc t =
        Res.ok (acc ++ ((trieKVs n).map t).take (T - acc.length)) := by
  intro fuel
  induction fuel with
  | zero =>
    intro m n p T level acc t _ hh _ _ _
    exact absurd hh (by have := heightI_pos n; omega)
  | succ fuel ih =>
    intro m n p T level acc t hwf hh hp hl hacc
    have hchf := wf_children_forall2h hwf hh
    simp only [iterateRecursive]
    rw [if_pos (by omega : 0 < level)]
    by_cases heq : T = acc.length
    · rw [if_pos heq]
      have : T - acc.length = 0 := by omega
      simp [this]
    · rw [if_neg heq]
      rw [if_neg (by simp [skLen]; omega)]
      rw [if_neg (by simp)]
      rw [wf_version hwf, List.drop_zero]
      have hlv := wf_leafVersion hwf
      rcases wf_leafKey hwf with hkb | ⟨hkb, hpne⟩
      · rw [if_neg (by simp [hkb])]
        rw [iterateChildren_none_eq m fuel T level t p
          (fun c p' a hw hc hp' ha => ih m c p' T (level + 1) a t hw hc hp' (by omega) ha)
          _ _ 0 0 acc hchf hp hacc]
        rw [trieKVs_eq, hkb]
        simp
      · have hkbne : ¬ n.leaf.keyBytes = [] := by
          rw [hkb]
          exact hpne
        rw [if_pos ⟨hlv, by rw [hkb]; exact List.length_pos.2 hpne⟩]
        have hacc1 : (acc ++ [t (genKeyValPair n)]).length ≤ T := by
          simp only [List.length_append, List.length_cons, List.length_nil]
          omega
        rw [iterateChildren_none_eq m fuel T level t p
          (fun c p' a hw hc hp' ha => ih m c p' T (level + 1) a t hw hc hp' (by omega) ha)
          _ _ 0 0 _ hchf hp hacc1]
        have hgen : genKeyValPair n = { Key := n.leaf.keyBytes, Value := n.leaf.value } := rfl
        rw [hgen]
        have hidxL : T - (acc ++
            [t { Key := n.leaf.keyBytes, Value := n.leaf.value }]).length =
            T - acc.length - 1 := by
          simp only [List.length_append, List.length_cons, List.length_nil]
          omega
        rw [hidxL, trieKVs_eq, if_neg hkbne, List.map_append, List.take_append_eq_append_take]
        have htX : ((List.map t
            [{ Key := n.leaf.keyBytes, Value := n.leaf.value }]).take (T - acc.length)) =
            List.map t [{ Key := n.leaf.keyBytes, Value := n.leaf.value }] := by
          apply List.take_of_length_le
          simp only [List.length_map, List.length_cons, List.length_nil]
          omega
        rw [htX]
        have hlX : (List.map t
            [({ Key := n.leaf.keyBytes, Value := n.leaf.value } : KeyValuePair)]).length = 1 := by
          simp
        rw [hlX, List.append_assoc]
        simp only [List.map_cons, List.map_nil]

/-- C1: over a committed (single-version, spec-modelled) trie, iterate with
a nil start key and a limit at least the number of stored pairs returns,
appended to the accumulator it was given, exactly the depth-first list
`trieKVs` of the trie's pairs — and that list is strictly sorted in
ascending lexicographic key order. -/
theorem iterate_nil_sorted (V minV : Nat) (m : MMap) (fuel : Nat) (root : INode)
    (T : Nat) (hwf : WFTrie V minV [] root) (hh : heightI root ≤ fuel)
    (hT : (trieKVs root).length ≤ T) :
    iterateRecursive m fuel root minV none T 0 [] idT = Res.ok (trieKVs root) ∧
    List.Pairwise (fun x y => bytesCompare x.Key y.Key = Ordering.lt) (trieKVs root) := by
  refine ⟨?_, (wf_facts (heightI root) root [] (le_refl _) hwf).2⟩
  match fuel, hh with
  | 0, hh => exact absurd hh (by have := heightI_pos root; omega)
  | fuel + 1, hh =>
    have hchf := wf_children_forall2h hwf hh
    simp only [iterateRecursive]
    rw [if_neg (by omega)]
    have hpos0 : getPosition root.bitmap (getIndexForLevel (skBytes none) 0) 0 = 0 := by
      simp [getPosition, getIndexForLevel, skBytes]
    rw [wf_version hwf, hpos0, List.drop_zero]
    rw [iterateChildren_none_eq m fuel T 0 idT []
      (fun c p' a hw hc hp' ha =>
        iterate_none_eq fuel m c p' T 1 a idT hw hc hp' (by omega) ha)
      _ _ 0 0 [] hchf rfl (by simp)]
    have hkb : root.leaf.keyBytes = [] := by
      rcases wf_leafKey hwf with hkb | ⟨_, hpne⟩
      · exact hkb
      · exact absurd rfl hpne
    rw [trieKVs_eq, hkb]
    simp only [if_pos rfl, List.nil_append, List.length_nil, Nat.sub_zero]
    have hmapid : ∀ l : List KeyValuePair, l.map idT = l := fun l => l.map_id
    rw [hmapid]
    have hT' : (trieKVsList root.children).length ≤ T := by
      rw [trieKVs_eq, hkb] at hT
      simpa using hT
    rw [List.take_of_length_le hT']
    simp

theorem exNodeAB_wf : WFTrie 7 0 [97, 98] exNodeAB := by
  apply WFTrie.node
  · decide
  · rfl
  · rfl
  · decide
  · exact Or.inr ⟨rfl, by decide⟩
  · decide
  · intro i h1 h2
    simp [exNodeAB, INode.children] at h1

theorem exNodeA_wf : WFTrie 7 0 [97] exNodeA := by
  apply WFTrie.node
  · decide
  · rfl
  · rfl
  · decide
  · exact Or.inr ⟨rfl, by decide⟩
  · decide
  · intro i h1 h2
    have hi : i = 0 := by
      simp [exNodeA, INode.children] at h1
      omega
    subst hi
    exact exNodeAB_wf

theorem exRoot_wf : WFTrie 7 0 [] exRoot := by
  apply WFTrie.node
  · decide
  · rfl
  · rfl
  · decide
  · exact Or.inl rfl
  · decide
  · intro i h1 h2
    have hi : i = 0 := by
      simp [exRoot, INode.children] at h1
      omega
    subst hi
    exact exNodeA_wf

theorem exRoot_height : heightI exRoot = 3 := by
  simp [exRoot, exNodeA, exNodeAB, heightI, heightList]

theorem exRoot_trieKVs :
    trieKVs exRoot = [{ Key := [97], Value := [2] }, { Key := [97, 98], Value := [1] }] := by
  simp [exRoot, exNodeA, exNodeAB, exLeafSentinel, exLeafA, exLeafAB, trieKVs, trieKVsList,
    LNode.keyBytes]

theorem iterate_nil_sorted_witness :
    iterateRecursive [] 3 exRoot 0 none 2 0 [] idT = Res.ok (trieKVs exRoot) ∧
    List.Pairwise (fun x y => bytesCompare x.Key y.Key = Ordering.lt) (trieKVs exRoot) :=
  iterate_nil_sorted 7 0 [] 3 exRoot 2 exRoot_wf (by rw [exRoot_height])
    (by rw [exRoot_trieKVs]; decide)

/-! ## C3: the emission guards of iterate, case by case -/

/-- C3 counterexample: a committed trie whose node at path "a" = [97] has a
sentinel leaf (insert "a", then delete it: delete resets the leaf and
pruning is not realized).  Iterating from start key [97] reaches that node
with `len(startKey) == level` and emits the sentinel pair even though its
`keyLength` is 0 — the exact-point case has no real-key guard. -/
theorem iterate_exactPoint_emits_sentinel :
    iterateRecursive [] 10 exRootSentinel 0 (some [97]) 5 0 [] idT =
      Res.ok [{ Key := [], Value := [] }] ∧
    exNodeSentinel.leaf.keyLength = 0 ∧
    exNodeSentinel.leaf.keyBytes.length = 0 := by
  refine ⟨by decide, rfl, rfl⟩

/-- C3 amended: during iteration a node's own leaf is emitted only when
`leaf.version ≥ minVersion`; the real-key (`keyLength > 0`) requirement
holds in the default case, the `len(startKey) > level` case instead
requires `leaf.key ≥ startKey` (which a sentinel never satisfies for a
nonempty start key), and in the exact-point case `len(startKey) == level`
the leaf is emitted on the version check alone, sentinel or not. -/
theorem iterate_emission_cases (m : MMap) (fuel : Nat) (node : INode) (minV : Nat)
    (sk : Option (List Nat)) (T level : Nat) (acc : List KeyValuePair)
    (t : KeyValuePair → KeyValuePair)
    (hch : node.children = []) (hl0 : 0 < level) (hT : ¬ T = acc.length) :
    (skLen sk = level →
      iterateRecursive m (fuel + 1) node minV sk T level acc t =
        Res.ok (acc ++ if minV ≤ node.leaf.version then [t (genKeyValPair node)] else [])) ∧
    (¬ skLen sk = level → sk.isSome ∧ level < skLen sk →
      iterateRecursive m (fuel + 1) node minV sk T level acc t =
        Res.ok (acc ++ if (bytesCompare node.leaf.keyBytes (skBytes sk) = Ordering.gt ∨
            node.leaf.keyBytes = skBytes sk) ∧ minV ≤ node.leaf.version
          then [t (genKeyValPair node)] else [])) ∧
    (¬ skLen sk = level → ¬ (sk.isSome ∧ level < skLen sk) →
      iterateRecursive m (fuel + 1) node minV sk T level acc t =
        Res.ok (acc ++ if minV ≤ node.leaf.version ∧ 0 < node.leaf.keyBytes.length
          then [t (genKeyValPair node)] else [])) := by
  refine ⟨?_, ?_, ?_⟩
  · intro hsk
    simp only [iterateRecursive]
    rw [if_pos hl0, if_neg hT, if_pos hsk, hch]
    by_cases hv : minV ≤ node.leaf.version
    · simp [iterateChildren, hv]
    · simp [iterateChildren, hv]
  · intro hne hsome
    simp only [iterateRecursive]
    rw [if_pos hl0, if_neg hT, if_neg hne, if_pos hsome, hch]
    by_cases hcmp : bytesCompare node.leaf.keyBytes (skBytes sk) = Ordering.gt ∨
        node.leaf.keyBytes = skBytes sk
    · by_cases hv : minV ≤ node.leaf.version
      · simp [iterateChildren, hcmp, hv]
      · simp [iterateChildren, hcmp, hv]
    · simp [iterateChildren, hcmp]
  · intro hne hnot
    simp only [iterateRecursive]
    rw [if_pos hl0, if_neg hT, if_neg hne, if_neg hnot, hch]
    by_cases hve : minV ≤ node.leaf.version ∧ 0 < node.leaf.keyBytes.length
    · simp [iterateChildren, hve]
    · simp [iterateChildren, hve]

theorem iterate_emission_cases_witness :
    iterateRecursive [] 3 exNodeAB 0 (some [97, 98]) 5 2 [] idT =
      Res.ok ([] ++ if 0 ≤ exNodeAB.leaf.version then [idT (genKeyValPair exNodeAB)] else []) :=
  (iterate_emission_cases [] 2 exNodeAB 0 (some [97, 98]) 5 2 [] idT rfl (by decide)
    (by decide)).1 (by decide)

/-! ## C2: keys returned by iterate are bounded below by the start key -/

theorem getIndexForLevel_eq_getD (key : List Nat) (level : Nat) :
    getIndexForLevel key level = key.getD level 0 := by
  unfold getIndexForLevel
  split
  · rename_i h
    rw [List.getD_eq_getElem _ _ h]
    simp
  · rename_i h
    rw [List.getD_eq_default]
    omega

/-- Every key of a well-formed subtree extends the subtree's path. -/
theorem trieKVs_prefix {V mv : Nat} (c : INode) (p' : List Nat)
    (hwf : WFTrie V mv p' c) : ∀ kv ∈ trieKVs c, ∃ rest, kv.Key = p' ++ rest := by
  intro kv hkv
  rcases (wf_facts (heightI c) c p' (le_refl _) hwf).1 kv hkv with ⟨hk, _⟩ | ⟨b, r, hk⟩
  · exact ⟨[], by simp [hk]⟩
  · exact ⟨b :: r, hk⟩

/-- A key extending a path that dominates `sk` pointwise up to `sk`'s
length is not below `sk`. -/
theorem key_ge_of_pge (sk p key rest : List Nat) (hkey : key = p ++ rest)
    (hpg : ∀ i, i < sk.length → i < p.length → sk.getD i 0 ≤ p.getD i 0)
    (hlen : sk.length ≤ p.length) : bytesCompare key sk ≠ Ordering.lt := by
  apply bytesCompare_ne_lt sk key sk.length
  · intro i _ hi hik
    rw [hkey, List.getD_append _ _ _ _ (by omega)]
    exact hpg i hi (by omega)
  · left
    refine ⟨?_, le_refl _⟩
    rw [hkey, List.length_append]
    omega

/-- A key that diverges strictly upward from `sk` at position `p.length`,
after a pointwise-dominating common prefix, is not below `sk`. -/
theorem key_gt_of_strict (sk p : List Nat) (b : Nat) (rest key : List Nat) (level : Nat)
    (hkey : key = p ++ b :: rest) (hlevel : level = p.length) (hlt : level < sk.length)
    (hb : sk.getD level 0 < b)
    (hpg : ∀ i, i < sk.length → i < p.length → sk.getD i 0 ≤ p.getD i 0) :
    bytesCompare key sk ≠ Ordering.lt := by
  apply bytesCompare_ne_lt sk key p.length
  · intro i hij hi _
    rw [hkey, List.getD_append _ _ _ _ (by omega)]
    exact hpg i hi (by omega)
  · right
    refine ⟨by omega, ?_, ?_⟩
    · rw [hkey, List.length_append]
      simp only [List.length_cons]
      omega
    · rw [hkey, List.getD_append_right _ _ _ _ (le_refl _)]
      have hsub : p.length - p.length = 0 := Nat.sub_self _
      rw [hsub, List.getD_cons_zero, ← hlevel]
      exact hb

/-- The child loop past the cursor child: every child is traversed with a
nil start key, and all pairs it emits have keys above `sk` (or are
sentinel pairs, which cannot occur here since each subtree's byte is
strictly above the start key's byte at this level when the start key is
still live). -/
theorem iterChildren_tail_sound {V minV : Nat} (m : MMap) (fuel T level : Nat)
    (sk p : List Nat) (skp : Nat) (hplen : p.length = level)
    (hpg : ∀ i, i < sk.length → i < p.length → sk.getD i 0 ≤ p.getD i 0) :
    ∀ (bs : List Nat) (cs : List INode) (currPos : Nat) (acc : List KeyValuePair),
      List.Forall₂ (fun b c => WFTrie V minV (p ++ [b]) c ∧ heightI c ≤ fuel) bs cs →
      (level < sk.length → ∀ b ∈ bs, sk.getD level 0 < b) →
      skp < currPos →
      acc.length ≤ T →
      ∃ l, iterateChildren (fun child s a =>
          iterateRecursive m fuel child minV s T (level + 1) a idT) m V (some sk) T
          cs currPos skp acc = Res.ok (acc ++ l) ∧
        acc.length + l.length ≤ T ∧
        ∀ kv ∈ l, kv.Key = [] ∨ bytesCompare kv.Key sk ≠ Ordering.lt := by
  intro bs cs
  induction cs generalizing bs with
  | nil =>
    intro currPos acc _ _ _ hacc
    exact ⟨[], by simp [iterateChildren], by simpa using hacc, by simp⟩
  | cons c cs' ih =>
    intro currPos acc hf hbnd hpos hacc
    rcases hf with _ | ⟨⟨hwfc, hhc⟩, hrest⟩
    rename_i b bs'
    simp only [iterateChildren]
    by_cases hlt : acc.length < T
    · rw [if_pos hlt, getChildNode_wf m hwfc]
      simp only [Option.isSome_some, eq_self_iff_true, and_true]
      rw [if_neg (by omega : ¬ currPos = skp)]
      rw [iterate_none_eq fuel m c (p ++ [b]) T (level + 1) acc idT hwfc hhc
        (by simp [hplen]) (by omega) (by omega)]
      have hmapid : ((trieKVs c).map idT) = trieKVs c := (trieKVs c).map_id
      rw [hmapid]
      split
      · rename_i acc2 heqa
        injection heqa with heqa2
        subst heqa2
        obtain ⟨l1, heq1, hlen1, hsound1⟩ := ih bs' (currPos + 1)
          (acc ++ (trieKVs c).take (T - acc.length)) hrest
          (fun hlv b' hb' => hbnd hlv b' (List.mem_cons_of_mem b hb'))
          (by omega) (by simp; omega)
        refine ⟨(trieKVs c).take (T - acc.length) ++ l1, ?_, ?_, ?_⟩
        · rw [heq1, List.append_assoc]
        · simp only [List.length_append, List.length_take] at hlen1 ⊢
          omega
        · intro kv hkv
          rw [List.mem_append] at hkv
          rcases hkv with hkv | hkv
          · have hmem := List.mem_of_mem_take hkv
            obtain ⟨rest, hkeq⟩ := trieKVs_prefix c (p ++ [b]) hwfc kv hmem
            right
            rcases Nat.lt_or_ge level sk.length with hlv | hlv
            · exact key_gt_of_strict sk p b rest kv.Key level
                (by simpa [List.append_assoc] using hkeq) hplen.symm hlv
                (hbnd hlv b (List.mem_cons_self b bs')) hpg
            · exact key_ge_of_pge sk p kv.Key (b :: rest)
                (by simpa [List.append_assoc] using hkeq) hpg (by omega)
          · exact hsound1 kv hkv
      · rename_i e heqa
        exact absurd heqa (by simp)
      · rename_i heqa
        exact absurd heqa (by simp)
    · rw [if_neg hlt]
      exact ⟨[], by simp, by simpa using hacc, by simp⟩

/-- The child loop from the cursor child: the first child is descended
with the start key (its byte dominates the start key's byte at this
level), the rest with nil; everything emitted is sound. -/
theorem iterChildren_head_sound {V minV : Nat} (m : MMap) (fuel T level : Nat)
    (sk p : List Nat) (skp : Nat) (hplen : p.length = level)
    (hpg : ∀ i, i < sk.length → i < p.length → sk.getD i 0 ≤ p.getD i 0)
    (hrecS : ∀ (c : INode) (p' : List Nat) (a : List KeyValuePair),
      WFTrie V minV p' c → heightI c ≤ fuel → p'.length = level + 1 → a.length ≤ T →
      (∀ i, i < sk.length → i < p'.length → sk.getD i 0 ≤ p'.getD i 0) →
      ∃ l, iterateRecursive m fuel c minV (some sk) T (level + 1) a idT =
          Res.ok (a ++ l) ∧ a.length + l.length ≤ T ∧
        ∀ kv ∈ l, kv.Key = [] ∨ bytesCompare kv.Key sk ≠ Ordering.lt) :
    ∀ (bs : List Nat) (cs : List INode) (acc : List KeyValuePair),
      List.Forall₂ (fun b c => WFTrie V minV (p ++ [b]) c ∧ heightI c ≤ fuel) bs cs →
      bs.Pairwise (· < ·) →
      (level < sk.length → ∀ b ∈ bs, sk.getD level 0 ≤ b) →
      acc.length ≤ T →
      ∃ l, iterateChildren (fun child s a =>
          iterateRecursive m fuel child minV s T (level + 1) a idT) m V (some sk) T
          cs skp skp acc = Res.ok (acc ++ l) ∧
        acc.length + l.length ≤ T ∧
        ∀ kv ∈ l, kv.Key = [] ∨ bytesCompare kv.Key sk ≠ Ordering.lt := by
  intro bs cs acc hf hsort hbnd hacc
  cases hf with
  | nil => exact ⟨[], by simp [iterateChildren], by simpa using hacc, by simp⟩
  | cons hbc hrest =>
    rename_i b c bs' cs'
    obtain ⟨hwfc, hhc⟩ := hbc
    simp only [iterateChildren]
    by_cases hlt : acc.length < T
    · rw [if_pos hlt, getChildNode_wf m hwfc]
      simp only [Option.isSome_some, eq_self_iff_true, and_self, if_true]
      have hpge : ∀ i, i < sk.length → i < (p ++ [b]).length →
          sk.getD i 0 ≤ (p ++ [b]).getD i 0 := by
        intro i hi hip
        simp only [List.length_append, List.length_cons, List.length_nil] at hip
        rcases Nat.lt_or_ge i p.length with hi2 | hi2
        · rw [List.getD_append _ _ _ _ hi2]
          exact hpg i hi hi2
        · have hieq : i = p.length := by omega
          subst hieq
          rw [List.getD_append_right _ _ _ _ (le_refl _)]
          simpa [hplen] using hbnd (by omega) b (List.mem_cons_self b bs')
      obtain ⟨l0, heq0, hlen0, hsound0⟩ := hrecS c (p ++ [b]) acc hwfc hhc
        (by simp [hplen]) (by omega) hpge
      rw [heq0]
      split
      · rename_i acc2 heqa
        injection heqa with heqa2
        subst heqa2
        obtain ⟨l1, heq1, hlen1, hsound1⟩ := iterChildren_tail_sound m fuel T level
          sk p skp hplen hpg bs' cs' (skp + 1) (acc ++ l0) hrest
          (fun hlv b' hb' => by
            have hb0 := hbnd hlv b (List.mem_cons_self b bs')
            have := (List.pairwise_cons.1 hsort).1 b' hb'
            omega)
          (by omega) (by simp; omega)
        refine ⟨l0 ++ l1, ?_, ?_, ?_⟩
        · rw [heq1, List.append_assoc]
        · simp only [List.length_append] at hlen1 ⊢
          omega
        · intro kv hkv
          rw [List.mem_append] at hkv
          rcases hkv with hkv | hkv
          · exact hsound0 kv hkv
          · exact hsound1 kv hkv
      · rename_i e heqa
        exact absurd heqa (by simp)
      · rename_i heqa
        exact absurd heqa (by simp)
    · rw [if_neg hlt]
      exact ⟨[], by simp, by simpa using hacc, by simp⟩

/-- Soundness of iterate with a live start key, at every node of the
followed path: every emitted pair is either a sentinel pair (the
exact-point flaw) or has a key not below `sk`. -/
theorem iterate_some_sound {V minV : Nat} :
    ∀ (fuel : Nat) (m : MMap) (n : INode) (p sk : List Nat) (T level : Nat)
      (acc : List KeyValuePair),
      WFTrie V minV p n → heightI n ≤ fuel → p.length = level → acc.length ≤ T →
      (∀ i, i < sk.length → i < p.length → sk.getD i 0 ≤ p.getD i 0) →
      ∃ l, iterateRecursive m fuel n minV (some sk) T level acc idT = Res.ok (acc ++ l) ∧
        acc.length + l.length ≤ T ∧
        ∀ kv ∈ l, kv.Key = [] ∨ bytesCompare kv.Key sk ≠ Ordering.lt := by
  intro fuel
  induction fuel with
  | zero =>
    intro m n p sk T level acc _ hh _ _ _
    exact absurd hh (by have := heightI_pos n; omega)
  | succ fuel ih =>
    intro m n p sk T level acc hwf hh hp hacc hpg
    have hchf := wf_children_forall2h hwf hh
    have hrecS : ∀ (c : INode) (p' : List Nat) (a : List KeyValuePair),
        WFTrie V minV p' c → heightI c ≤ fuel → p'.length = level + 1 → a.length ≤ T →
        (∀ i, i < sk.length → i < p'.length → sk.getD i 0 ≤ p'.getD i 0) →
        ∃ l, iterateRecursive m fuel c minV (some sk) T (level + 1) a idT =
            Res.ok (a ++ l) ∧ a.length + l.length ≤ T ∧
          ∀ kv ∈ l, kv.Key = [] ∨ bytesCompare kv.Key sk ≠ Ordering.lt :=
      fun c p' a hw hc hp' ha hpga => ih m c p' sk T (level + 1) a hw hc hp' ha hpga
    have hkids : ∀ (skp : Nat) (l0 : List KeyValuePair),
        (level < sk.length → ∀ b ∈ (bitsList n.bitmap).drop skp, sk.getD level 0 ≤ b) →
        (acc ++ l0).length ≤ T →
        (∀ kv ∈ l0, kv.Key = [] ∨ bytesCompare kv.Key sk ≠ Ordering.lt) →
        ∃ l, iterateChildren (fun child s a =>
            iterateRecursive m fuel child minV s T (level + 1) a idT) m V (some sk) T
            (n.children.drop skp) skp skp (acc ++ l0) = Res.ok (acc ++ l) ∧
          acc.length + l.length ≤ T ∧
          ∀ kv ∈ l, kv.Key = [] ∨ bytesCompare kv.Key sk ≠ Ordering.lt := by
      intro skp l0 hbound hlen0 hsound0
      obtain ⟨l1, heq1, hlen1, hsound1⟩ := iterChildren_head_sound m fuel T level sk p
        skp hp hpg hrecS ((bitsList n.bitmap).drop skp) (n.children.drop skp) (acc ++ l0)
        (List.forall₂_drop skp hchf)
        ((bitsList_pairwise _).sublist (List.drop_sublist _ _)) hbound hlen0
      refine ⟨l0 ++ l1, ?_, ?_, ?_⟩
      · rw [heq1, List.append_assoc]
      · simp only [List.length_append] at hlen1 ⊢
        omega
      · intro kv hkv
        rw [List.mem_append] at hkv
        rcases hkv with hkv | hkv
        · exact hsound0 kv hkv
        · exact hsound1 kv hkv
    simp only [iterateRecursive]
    by_cases hl : 0 < level
    · rw [if_pos hl]
      by_cases heqT : T = acc.length
      · rw [if_pos heqT]
        exact ⟨[], by simp, by simp; omega, by simp⟩
      · rw [if_neg heqT]
        by_cases hskl : skLen (some sk) = level
        · rw [if_pos hskl, if_pos (wf_leafVersion hwf)]
          have hskl' : sk.length = level := hskl
          rw [wf_version hwf]
          have hsx : ∀ kv ∈ [idT (genKeyValPair n)],
              kv.Key = [] ∨ bytesCompare kv.Key sk ≠ Ordering.lt := by
            intro kv hkv
            simp only [List.mem_singleton] at hkv
            subst hkv
            rcases wf_leafKey hwf with hkb | ⟨hkb, _⟩
            · left
              exact hkb
            · right
              exact key_ge_of_pge sk p _ [] (by simp [idT, genKeyValPair, hkb]) hpg
                (by omega)
          obtain ⟨l, heql, hlenl, hsoundl⟩ := hkids 0 [idT (genKeyValPair n)]
            (fun hlv => absurd hlv (by omega)) (by simp; omega) hsx
          exact ⟨l, heql, hlenl, hsoundl⟩
        · rw [if_neg hskl]
          by_cases hfol : (some sk).isSome = true ∧ level < skLen (some sk)
          · rw [if_pos hfol]
            have hlsk : level < sk.length := hfol.2
            have hbound : level < sk.length → ∀ b ∈ (bitsList n.bitmap).drop
                (getPosition n.bitmap (getIndexForLevel (skBytes (some sk)) level) level),
                sk.getD level 0 ≤ b := by
              intro _ b hb
              have hge := bits_drop_ge n.bitmap (wf_bitmap8 hwf)
                (getIndexForLevel (skBytes (some sk)) level) level b hb
              rw [getIndexForLevel_eq_getD] at hge
              exact hge
            rw [wf_version hwf]
            by_cases hcmp : bytesCompare n.leaf.keyBytes (skBytes (some sk)) = Ordering.gt ∨
                n.leaf.keyBytes = skBytes (some sk)
            · rw [if_pos hcmp, if_pos (wf_leafVersion hwf)]
              have hsx : ∀ kv ∈ [idT (genKeyValPair n)],
                  kv.Key = [] ∨ bytesCompare kv.Key sk ≠ Ordering.lt := by
                intro kv hkv
                simp only [List.mem_singleton] at hkv
                subst hkv
                right
                rcases hcmp with hgt | heqk
                · intro hbad
                  rw [show (idT (genKeyValPair n)).Key = n.leaf.keyBytes from rfl] at hbad
                  rw [show skBytes (some sk) = sk from rfl] at hgt
                  rw [hgt] at hbad
                  exact absurd hbad (by simp)
                · rw [show (idT (genKeyValPair n)).Key = n.leaf.keyBytes from rfl, heqk]
                  rw [show skBytes (some sk) = sk from rfl]
                  rw [bytesCompare_refl]
                  simp
              obtain ⟨l, heql, hlenl, hsoundl⟩ := hkids _ [idT (genKeyValPair n)]
                hbound (by simp; omega) hsx
              exact ⟨l, heql, hlenl, hsoundl⟩
            · rw [if_neg hcmp]
              obtain ⟨l, heql, hlenl, hsoundl⟩ := hkids _ [] hbound (by simpa using hacc)
                (by simp)
              rw [List.append_nil] at heql
              exact ⟨l, heql, hlenl, hsoundl⟩
          · rw [if_neg hfol]
            have hsklt : sk.length < level := by
              have h1 : ¬ sk.length = level := hskl
              have h2 : ¬ ((some sk).isSome = true ∧ level < sk.length) := hfol
              simp only [Option.isSome_some, true_and] at h2
              omega
            rw [wf_version hwf]
            by_cases hve : minV ≤ n.leaf.version ∧ 0 < n.leaf.keyBytes.length
            · rw [if_pos hve]
              have hsx : ∀ kv ∈ [idT (genKeyValPair n)],
                  kv.Key = [] ∨ bytesCompare kv.Key sk ≠ Ordering.lt := by
                intro kv hkv
                simp only [List.mem_singleton] at hkv
                subst hkv
                rcases wf_leafKey hwf with hkb | ⟨hkb, _⟩
                · left
                  exact hkb
                · right
                  exact key_ge_of_pge sk p _ [] (by simp [idT, genKeyValPair, hkb]) hpg
                    (by omega)
              obtain ⟨l, heql, hlenl, hsoundl⟩ := hkids 0 [idT (genKeyValPair n)]
                (fun hlv => absurd hlv (by omega)) (by simp; omega) hsx
              exact ⟨l, heql, hlenl, hsoundl⟩
            · rw [if_neg hve]
              obtain ⟨l, heql, hlenl, hsoundl⟩ := hkids 0 []
                (fun hlv => absurd hlv (by omega)) (by simpa using hacc) (by simp)
              rw [List.append_nil] at heql
              exact ⟨l, heql, hlenl, hsoundl⟩
    · rw [if_neg hl]
      have hbound : level < sk.length → ∀ b ∈ (bitsList n.bitmap).drop
          (getPosition n.bitmap (getIndexForLevel (skBytes (some sk)) level) level),
          sk.getD level 0 ≤ b := by
        intro _ b hb
        have hge := bits_drop_ge n.bitmap (wf_bitmap8 hwf)
          (getIndexForLevel (skBytes (some sk)) level) level b hb
        rw [getIndexForLevel_eq_getD] at hge
        exact hge
      rw [wf_version hwf]
      obtain ⟨l, heql, hlenl, hsoundl⟩ := hkids _ [] hbound (by simpa using hacc) (by simp)
      rw [List.append_nil] at heql
      exact ⟨l, heql, hlenl, hsoundl⟩

theorem exNodeSentinel_wf : WFTrie 7 0 [97] exNodeSentinel := by
  apply WFTrie.node
  · decide
  · rfl
  · rfl
  · decide
  · exact Or.inl rfl
  · decide
  · intro i h1 h2
    simp [exNodeSentinel, INode.children] at h1

theorem exRootSentinel_wf : WFTrie 7 0 [] exRootSentinel := by
  apply WFTrie.node
  · decide
  · rfl
  · rfl
  · decide
  · exact Or.inl rfl
  · decide
  · intro i h1 h2
    have hi : i = 0 := by
      simp [exRootSentinel, INode.children] at h1
      omega
    subst hi
    exact exNodeSentinel_wf

/-- C2 counterexample: over the committed trie left by inserting and then
deleting key "a" (a sentinel leaf at path [97]), iterating from start key
[97] returns a pair whose (empty) key is lexicographically below the start
key. -/
theorem iterate_startKey_counterexample :
    WFTrie 7 0 [] exRootSentinel ∧
    iterateRecursive [] 10 exRootSentinel 0 (some [97]) 5 0 [] idT =
      Res.ok [{ Key := [], Value := [] }] ∧
    bytesCompare ([] : List Nat) [97] = Ordering.lt :=
  ⟨exRootSentinel_wf, by decide, by decide⟩

/-- C2 amended: over a committed (single-version, spec-modelled) trie,
every pair returned by iterate from `startKey` either has a key that is
lexicographically not below `startKey`, or is a sentinel pair with an
empty key — the one exception, emitted by the guard-free exact-point case
when the node at depth `len(startKey)` on the followed path holds a
deleted (sentinel) leaf. -/
theorem iterate_startKey_ge (V minV : Nat) (m : MMap) (fuel : Nat) (root : INode)
    (sk : List Nat) (T : Nat) (res : List KeyValuePair)
    (hwf : WFTrie V minV [] root) (hh : heightI root ≤ fuel)
    (hres : iterateRecursive m fuel root minV (some sk) T 0 [] idT = Res.ok res) :
    ∀ kv ∈ res, kv.Key = [] ∨ bytesCompare kv.Key sk ≠ Ordering.lt := by
  obtain ⟨l, heq, _, hsound⟩ := iterate_some_sound fuel m root [] sk T 0 [] hwf hh rfl
    (by simp) (by simp)
  rw [List.nil_append] at heq
  rw [heq] at hres
  injection hres with h2
  subst h2
  exact hsound

theorem iterate_startKey_ge_witness :
    ({ Key := [97, 98], Value := [1] } : KeyValuePair).Key = [] ∨
      bytesCompare ({ Key := [97, 98], Value := [1] } : KeyValuePair).Key [97] ≠
        Ordering.lt :=
  iterate_startKey_ge 7 0 [] 10 exRoot [97] 10
    [{ Key := [97], Value := [2] }, { Key := [97, 98], Value := [1] }] exRoot_wf
    (by rw [exRoot_height]; omega) (by decide) { Key := [97, 98], Value := [1] }
    (by decide)

end Mariv2
